import Mathlib

/-!
Verification of the incremental synchronization engine of a parquet-to-SQLite
data pipeline (update_db.py and watch_parquet.py).

The embedding models:
* filename filtering (frequency suffixes, exclusion patterns) on lists of
  characters, with Python str.lower modelled as ASCII lowercasing;
* the SQLite store as lists of rows (series, data, processed_files) plus the
  AUTOINCREMENT counter for series ids; SQL table contents are multisets, so
  theorems about "identical rows" are stated up to permutation of row lists;
* dates as naturals (the code normalizes dates to ISO strings, whose
  lexicographic order coincides with chronological order) and REAL values as
  integers (no arithmetic is ever performed on values);
* a parquet file as its tabular content: a Date column plus value columns with
  optional (nullable) entries; `none` content models a read that raises;
* the watcher handler as a state machine over (timer deadline, pending country
  set, updating flag), with the three critical sections of the Python handler
  as pure state transformers.
-/

/-! ### Filename filtering (update_db.py, watch_parquet.py) -/

/-- ASCII lowercasing of one character, modelling Python str.lower on the
ASCII filenames this pipeline handles. -/
def lowerChar (c : Char) : Char :=
  if 'A' ≤ c ∧ c ≤ 'Z' then Char.ofNat (c.toNat + 32) else c

/-- `name.lower()` on a filename. -/
def toLowerL (s : List Char) : List Char := s.map lowerChar

/-- `pat` is a prefix of `s` (structural, Python startswith). -/
def beginsWith : List Char → List Char → Bool
  | [], _ => true
  | _ :: _, [] => false
  | p :: ps, c :: cs => p == c && beginsWith ps cs

/-- `s.endswith(suffix)` on character lists. -/
def endsWithCh (s suffix : List Char) : Bool :=
  beginsWith suffix.reverse s.reverse

/-- Python `pat in s` substring test. -/
def hasSub (s pat : List Char) : Bool :=
  (List.range (s.length + 1)).any (fun i => beginsWith pat (s.drop i))

/-- VALID_SUFFIXES = ['_m.parquet', '_q.parquet', '_a.parquet'] -/
def VALID_SUFFIXES : List (List Char) :=
  ["_m.parquet".toList, "_q.parquet".toList, "_a.parquet".toList]

/-- EXCLUDED_PATTERNS = ['latest', 'recent', 'hist', 'history'] -/
def EXCLUDED_PATTERNS : List (List Char) :=
  ["latest".toList, "recent".toList, "hist".toList, "history".toList]

/-- get_frequency(filename): first matching suffix yields its frequency letter
(suffix.split('.')[0][-1]); None when no suffix matches. -/
def get_frequency (filename : List Char) : Option Char :=
  (VALID_SUFFIXES.find? (fun suffix => endsWithCh filename suffix)).map
    (fun suffix => (suffix.takeWhile (fun c => !(c == '.'))).getLastD 'x')

/-- is_excluded(filename): some exclusion pattern occurs in filename.lower(). -/
def is_excluded (filename : List Char) : Bool :=
  EXCLUDED_PATTERNS.any (fun pattern => hasSub (toLowerL filename) pattern)

/-- is_relevant_parquet from watch_parquet.py, applied to the file's base name:
lowercases the name, then requires a valid suffix and no exclusion pattern. -/
def is_relevant_parquet (name : List Char) : Bool :=
  let nm := toLowerL name
  if !(VALID_SUFFIXES.any (fun suffix => endsWithCh nm suffix)) then false
  else if EXCLUDED_PATTERNS.any (fun pattern => hasSub nm pattern) then false
  else true

/-! ### The store (SQLite database) -/

/-- A row of the `series` table.  `id` is the AUTOINCREMENT primary key;
UNIQUE(name, frequency) is maintained by the upsert. -/
structure SeriesRow where
  id : Nat
  name : String
  country : String
  frequency : String
  source_file : String
  min_date : Nat
  max_date : Nat
  count : Nat
  deriving DecidableEq, Repr

/-- A row of the `data` table (values are never stored as NULL, see C8). -/
structure DataRow where
  series_id : Nat
  date : Nat
  value : Int
  deriving DecidableEq, Repr

/-- A row of the `processed_files` ledger; `filepath` is the PRIMARY KEY. -/
structure ProcRow where
  filepath : String
  country : String
  frequency : String
  mtime : Nat
  series_count : Nat
  last_processed : Nat
  deriving DecidableEq, Repr

/-- The store: the three tables plus the AUTOINCREMENT counter for series ids.
The stats table is derived (create_stats_table) and modelled separately. -/
structure Store where
  series : List SeriesRow
  data : List DataRow
  processed : List ProcRow
  nextId : Nat
  deriving DecidableEq, Repr

/-- The tabular content of one parquet file: whether a Date column exists
(after a possible index reset), the Date column, and the value columns, each a
name with a list of nullable values aligned with the dates. -/
structure ParquetContent where
  hasDate : Bool
  dates : List Nat
  cols : List (String × List (Option Int))
  deriving DecidableEq, Repr

/-- One file of the current inventory, as seen by incremental_update: path,
country, frequency, current filesystem mtime, and content (`none` models a
read that raises an error). -/
structure FileInfo where
  path : String
  country : String
  freq : String
  mtime : Nat
  content : Option ParquetContent
  deriving DecidableEq, Repr

/-! ### The File Loader (load_parquet_file) -/

/-- df.melt(id_vars=['Date'], ...): one (date, name, value) row per cell,
column-major, values still nullable. -/
def meltRaw (c : ParquetContent) : List (Nat × String × Option Int) :=
  c.cols.flatMap (fun col => (c.dates.zip col.2).map (fun dv => (dv.1, col.1, dv.2)))

/-- df_long after dropna(subset=['value']): the non-null cells. -/
def longRows (c : ParquetContent) : List (Nat × String × Int) :=
  (meltRaw c).filterMap (fun r => (r.2.2).map (fun v => (r.1, r.2.1, v)))

/-- Helper for firstOccs: skip elements already seen. -/
def firstOccsFrom (seen : List String) : List String → List String
  | [] => []
  | n :: rest =>
    if seen.contains n then firstOccsFrom seen rest
    else n :: firstOccsFrom (n :: seen) rest

/-- Distinct elements in order of first appearance (groupby(sort=False)
group keys / meta.index). -/
def firstOccs (l : List String) : List String := firstOccsFrom [] l

/-- Minimum of a nonempty list of dates (0 for the empty list, which the
loader never queries). -/
def natMinL : List Nat → Nat
  | [] => 0
  | x :: xs => xs.foldl Nat.min x

/-- Maximum of a nonempty list of dates. -/
def natMaxL : List Nat → Nat
  | [] => 0
  | x :: xs => xs.foldl Nat.max x

/-- The dates carrying a (non-null) value for series `n` in this file:
the 'Date' column of the melted, null-filtered frame restricted to `n`. -/
def seriesDates (c : ParquetContent) (n : String) : List Nat :=
  (longRows c).filterMap (fun r => if r.2.1 == n then some r.1 else none)

/-- INSERT INTO series ... ON CONFLICT(name, frequency) DO UPDATE SET
country, source_file, min_date, max_date, count.  The UNIQUE(name, frequency)
constraint means at most one row can match; an insert takes the next
AUTOINCREMENT id and appends (rowid order). -/
def upsertSeries (st : Store) (name country frequency source_file : String)
    (min_date max_date cnt : Nat) : Store :=
  if st.series.any (fun r => r.name == name && r.frequency == frequency) then
    { st with series := st.series.map (fun r =>
        if r.name == name && r.frequency == frequency then
          { r with country := country, source_file := source_file,
                   min_date := min_date, max_date := max_date, count := cnt }
        else r) }
  else
    { st with
      series := st.series ++
        [⟨st.nextId, name, country, frequency, source_file, min_date, max_date, cnt⟩],
      nextId := st.nextId + 1 }

/-- The executemany of series upserts (Phase 3): one upsert per group key of
the melted frame, carrying that series' (min_date, max_date, count). -/
def upsertAll (c : ParquetContent) (country frequency source_file : String)
    (st : Store) (names : List String) : Store :=
  names.foldl (fun s n =>
    upsertSeries s n country frequency source_file
      (natMinL (seriesDates c n)) (natMaxL (seriesDates c n))
      (seriesDates c n).length) st

/-- load_parquet_file(conn, filepath, country, frequency, source_file).
Returns the store after the per-file transaction and the series count.
`none` content, or any exception inside the try block (modelled by the
unmapped-name astype failure), rolls the transaction back: the input store is
returned unchanged with count 0.  Zero-series cases (no Date column, no value
columns, empty frame after dropna) return 0 without writing. -/
def load_parquet_file (st : Store) (content : Option ParquetContent)
    (country frequency source_file : String) : Store × Nat :=
  match content with
  | none => (st, 0)
  | some c =>
    if !c.hasDate then (st, 0)
    else if c.cols.isEmpty then (st, 0)
    else
      let lr := longRows c
      if lr.isEmpty then (st, 0)
      else
        let names := firstOccs (lr.map (fun r => r.2.1))
        let st1 := upsertAll c country frequency source_file st names
        let n2i := (st1.series.filter
            (fun r => r.source_file == source_file && r.frequency == frequency)).map
            (fun r => (r.name, r.id))
        let ids := n2i.map (fun p => p.2)
        let st2 := { st1 with
          data := st1.data.filter (fun d => !(ids.contains d.series_id)) }
        let newData : List DataRow :=
          lr.map (fun r => ⟨(n2i.lookup r.2.1).getD 0, r.1, r.2.2⟩)
        if lr.all (fun r => (n2i.lookup r.2.1).isSome) then
          ({ st2 with data := st2.data ++ newData }, names.length)
        else (st, 0)

/-- remove_file_data(conn, filepath_str): select the ids of the series whose
source_file is this path, delete their data rows and series rows, delete the
ledger entry, commit.  Returns the new store and the number of series. -/
def remove_file_data (st : Store) (fp : String) : Store × Nat :=
  let ids := (st.series.filter (fun r => r.source_file == fp)).map (fun r => r.id)
  ({ st with
      data := st.data.filter (fun d => !(ids.contains d.series_id)),
      series := st.series.filter (fun r => !(ids.contains r.id)),
      processed := st.processed.filter (fun p => !(p.filepath == fp)) },
   ids.length)

/-- INSERT INTO processed_files ... ON CONFLICT(filepath) DO UPDATE SET
mtime, series_count, last_processed (country and frequency are not updated
on conflict). -/
def record_processed (st : Store) (fp country frequency : String)
    (mtime cnt now : Nat) : Store :=
  if st.processed.any (fun p => p.filepath == fp) then
    { st with processed := st.processed.map (fun p =>
        if p.filepath == fp then
          { p with mtime := mtime, series_count := cnt, last_processed := now }
        else p) }
  else
    { st with processed :=
        st.processed ++ [⟨fp, country, frequency, mtime, cnt, now⟩] }

/-! ### The Change Detector (detect_changed_files) -/

/-- SELECT filepath, mtime FROM processed_files WHERE country IN countries,
as an association list (filepath is the PRIMARY KEY, so paths are unique in
any store reachable by the code). -/
def ledgerFor (st : Store) (countries : List String) : List (String × Nat) :=
  (st.processed.filter (fun p => countries.contains p.country)).map
    (fun p => (p.filepath, p.mtime))

/-- A current file is classified changed when the (country-scoped) ledger has
no entry for its path or the stored mtime differs from the current one. -/
def changePred (st : Store) (countries : List String) (f : FileInfo) : Bool :=
  match (ledgerFor st countries).lookup f.path with
  | none => true
  | some m => m != f.mtime

/-- detect_changed_files(conn, parquet_files, countries) =
(changed, unchanged count, removed paths).  The inventory produced by
get_parquet_files has pairwise distinct paths (sorted globs over distinct
roots), so the path-keyed dict of the source is the inventory list itself. -/
def detect_changed_files (st : Store) (files : List FileInfo)
    (countries : List String) : List FileInfo × Nat × List String :=
  let changed := files.filter (changePred st countries)
  let unchanged := (files.filter (fun f => !(changePred st countries f))).length
  let removed := ((ledgerFor st countries).map (fun p => p.1)).filter
      (fun fp => !((files.map (fun f => f.path)).contains fp))
  (changed, unchanged, removed)

/-! ### The Sync Orchestrator (incremental_update) -/

/-- The per-changed-file body of incremental_update: remove the file's old
data (committed immediately), reload it, and record the ledger entry only
when the load reported more than zero series.  The mtime recorded is the
file's current mtime (FileInfo snapshots stat().st_mtime). -/
def process_changed_file (st : Store) (f : FileInfo) (now : Nat) : Store :=
  let st1 := (remove_file_data st f.path).1
  let r := load_parquet_file st1 f.content f.country f.freq f.path
  if r.2 > 0 then record_processed r.1 f.path f.country f.freq f.mtime r.2 now
  else r.1

/-- incremental_update(conn, countries) on an inventory `files` (the output
of get_parquet_files for `countries`): return early when the inventory is
empty or nothing changed; otherwise tear down removed files first, then
process the changed files.  create_indexes and create_stats_table only touch
derived tables, never series/data/processed_files rows. -/
def incremental_update (st : Store) (files : List FileInfo)
    (countries : List String) (now : Nat) : Store :=
  if files.isEmpty then st
  else
    let d := detect_changed_files st files countries
    if d.1.isEmpty && d.2.2.isEmpty then st
    else
      let st1 := d.2.2.foldl (fun s fp => (remove_file_data s fp).1) st
      d.1.foldl (fun s f => process_changed_file s f now) st1

/-! ### The Index & Stats Builder (create_stats_table) -/

/-- The contents of the stats table recomputed by create_stats_table. -/
structure Stats where
  total_series : Nat
  total_series_freq : Nat
  total_data_points : Nat
  deriving DecidableEq, Repr

/-- create_stats_table: COUNT(DISTINCT name), COUNT(*), and SUM(count) over
the series table (SUM of no rows is NULL, mapped to 0 by `or 0`; summing the
empty list gives the same 0). -/
def create_stats_table (st : Store) : Stats :=
  { total_series := ((st.series.map (fun r => r.name)).dedup).length
  , total_series_freq := st.series.length
  , total_data_points := (st.series.map (fun r => r.count)).sum }

/-! ### Observable views and store invariants -/

/-- A series row as the spec-level SeriesRecord (the surrogate id is
internal): (name, country, frequency, source_file, min_date, max_date,
count). -/
def seriesTuple (r : SeriesRow) : String × String × String × String × Nat × Nat × Nat :=
  (r.name, r.country, r.frequency, r.source_file, r.min_date, r.max_date, r.count)

/-- The series table at the spec level. -/
def seriesView (st : Store) : List (String × String × String × String × Nat × Nat × Nat) :=
  st.series.map seriesTuple

/-- The data table at the spec level: each data row joined to its owning
series row(s) by id, presented as (name, frequency, date, value). -/
def dataView (st : Store) : List (String × String × Nat × Int) :=
  st.data.flatMap (fun d =>
    (st.series.filter (fun r => r.id == d.series_id)).map
      (fun r => (r.name, r.frequency, d.date, d.value)))

/-- Series rows attributed to a source file. -/
def seriesOfSource (st : Store) (fp : String) : List SeriesRow :=
  st.series.filter (fun r => r.source_file == fp)

/-- Data rows owned by a series attributed to a source file. -/
def dataOfSource (st : Store) (fp : String) : List DataRow :=
  st.data.filter (fun d => (seriesOfSource st fp).any (fun r => r.id == d.series_id))

/-- Ledger entries for a path. -/
def procOf (st : Store) (fp : String) : List ProcRow :=
  st.processed.filter (fun p => p.filepath == fp)

/-- The schema invariants of the store: distinct series ids (PRIMARY KEY),
the UNIQUE(name, frequency) constraint, ids below the AUTOINCREMENT counter,
and every data row referencing an existing series row (FOREIGN KEY). -/
def StoreInv (st : Store) : Prop :=
  (st.series.map (fun r => r.id)).Nodup ∧
  (st.series.map (fun r => (r.name, r.frequency))).Nodup ∧
  (∀ r ∈ st.series, r.id < st.nextId) ∧
  (∀ d ∈ st.data, ∃ r ∈ st.series, r.id = d.series_id)

instance (st : Store) : Decidable (StoreInv st) := by
  unfold StoreInv
  infer_instance

/-! ### The Watch Trigger (watch_parquet.py) -/

/-- DEBOUNCE_SECONDS = 30 -/
def DEBOUNCE_SECONDS : Nat := 30

/-- The watcher handler's mutable state: the pending debounce timer as an
absolute deadline, the set of changed countries, and the updating flag. -/
structure WState where
  timer : Option Nat
  changed : List String
  updating : Bool
  deriving DecidableEq, Repr

/-- _on_relevant_change with the country already resolved from the path
(longest first-match against LOCAL_DATA_ROOTS precedes this).  While an
update is in flight the country is only queued; otherwise the pending timer
is cancelled and restarted DEBOUNCE_SECONDS from now. -/
def on_relevant_change (s : WState) (c : String) (now : Nat) : WState :=
  if s.updating then { s with changed := s.changed.insert c }
  else { s with timer := some (now + DEBOUNCE_SECONDS),
                changed := s.changed.insert c }

/-- The critical section at the top of _run_update: snapshot and clear the
changed set, drop the timer, raise the updating flag.  Returns the new state
and the country list handed to build_database. -/
def run_update_start (s : WState) : WState × List String :=
  ({ timer := none, changed := [], updating := true }, s.changed)

/-- The finally block of _run_update: clear the updating flag and, if new
changes were queued during the run, schedule a follow-up timer a fresh
DEBOUNCE_SECONDS from now (the queued set stays pending for that run). -/
def run_update_finish (s : WState) (now : Nat) : WState :=
  if s.changed.isEmpty then { s with updating := false }
  else { s with updating := false, timer := some (now + DEBOUNCE_SECONDS) }

/-- Timed executor for event traces: deliver time-ordered file events,
firing the pending timer (and running the update to completion, which at
quiescent points leaves no further timer) whenever its deadline has passed;
fire any remaining timer at the end.  Returns the final handler state and
the list of (start time, countries) sync runs. -/
def execEvents : WState → List (Nat × String) → WState × List (Nat × List String)
  | s, [] =>
    match s.timer with
    | none => (s, [])
    | some d =>
      let p := run_update_start s
      (run_update_finish p.1 d, [(d, p.2)])
  | s, (t, c) :: rest =>
    match s.timer with
    | some d =>
      if d ≤ t then
        let p := run_update_start s
        let s2 := run_update_finish p.1 d
        let q := execEvents (on_relevant_change s2 c t) rest
        (q.1, (d, p.2) :: q.2)
      else execEvents (on_relevant_change s c t) rest
    | none => execEvents (on_relevant_change s c t) rest

/-! ## Helper lemmas: filename filtering -/

/-- Mapping a function over both lists preserves the prefix test. -/
theorem beginsWith_map (f : Char → Char) :
    ∀ p s : List Char, beginsWith p s = true → beginsWith (p.map f) (s.map f) = true := by
  intro p
  induction p with
  | nil => intro s _; rfl
  | cons a as ih =>
    intro s h
    cases s with
    | nil => simp [beginsWith] at h
    | cons b bs =>
      simp only [beginsWith, Bool.and_eq_true, beq_iff_eq] at h
      simp only [List.map_cons, beginsWith, Bool.and_eq_true, beq_iff_eq]
      exact ⟨by rw [h.1], ih bs h.2⟩

/-- (l.find? p).isSome coincides with l.any p. -/
theorem find?_isSome_eq_any {α : Type} (p : α → Bool) (l : List α) :
    (l.find? p).isSome = l.any p := by
  induction l with
  | nil => rfl
  | cons a as ih =>
    by_cases h : p a = true
    · simp [List.find?, h]
    · simp only [Bool.not_eq_true] at h
      simp [List.find?, h, ih]

/-- Option.map preserves isSome. -/
theorem isSome_after_map {α β : Type} (f : α → β) (o : Option α) :
    (o.map f).isSome = o.isSome := by
  cases o <;> rfl

/-- Lowercasing the whole name preserves a suffix that is itself fixed by
lowercasing. -/
theorem endsWithCh_toLower (nm suffix : List Char)
    (hfix : toLowerL suffix = suffix) (h : endsWithCh nm suffix = true) :
    endsWithCh (toLowerL nm) suffix = true := by
  unfold endsWithCh at h ⊢
  unfold toLowerL at hfix ⊢
  have h2 := beginsWith_map lowerChar suffix.reverse nm.reverse h
  rw [List.map_reverse, List.map_reverse, hfix] at h2
  exact h2

/-- C9 counterexample input: a name whose suffix letters are upper case is
accepted by the watcher but rejected by the inventory's get_frequency. -/
def c9name : List Char := "A_M.parquet".toList

/-- C9 (counterexample): the watcher's filter accepts "A_M.parquet" although
get_frequency returns None for it, so is_relevant_parquet does not agree with
the Source Inventory's frequency rule on every filename. -/
theorem c9_counterexample :
    is_relevant_parquet c9name = true ∧ get_frequency c9name = none := by
  constructor
  · decide
  · decide

/-- C9 (amended): is_relevant_parquet accepts a name exactly when the
LOWERCASED name ends in a recognized frequency suffix and matches no
exclusion pattern; consequently it accepts every filename the inventory
accepts (get_frequency some, not excluded), but can accept more (names whose
suffix is not already lower case). -/
theorem c9_relevance_vs_inventory :
    (∀ name : List Char,
      is_relevant_parquet name = true ↔
        ((get_frequency (toLowerL name)).isSome = true ∧ is_excluded name = false)) ∧
    (∀ name : List Char,
      (get_frequency name).isSome = true → is_excluded name = false →
        is_relevant_parquet name = true) := by
  have hg : ∀ s : List Char, (get_frequency s).isSome =
      VALID_SUFFIXES.any (fun suffix => endsWithCh s suffix) := by
    intro s
    unfold get_frequency
    rw [isSome_after_map, find?_isSome_eq_any]
  have hiff : ∀ name : List Char,
      is_relevant_parquet name = true ↔
        ((get_frequency (toLowerL name)).isSome = true ∧ is_excluded name = false) := by
    intro name
    rw [hg]
    unfold is_relevant_parquet is_excluded
    cases hsuf : VALID_SUFFIXES.any (fun suffix => endsWithCh (toLowerL name) suffix) with
    | false => simp [hsuf]
    | true =>
      cases hexc : EXCLUDED_PATTERNS.any (fun pattern => hasSub (toLowerL name) pattern) with
      | false => simp [hsuf, hexc]
      | true => simp [hsuf, hexc]
  refine ⟨hiff, ?_⟩
  intro name hfreq hexc
  rw [hiff name]
  refine ⟨?_, hexc⟩
  rw [hg]
  rw [hg] at hfreq
  rw [List.any_eq_true] at hfreq ⊢
  obtain ⟨suffix, hmem, hends⟩ := hfreq
  refine ⟨suffix, hmem, ?_⟩
  have hfix : toLowerL suffix = suffix := by
    fin_cases hmem <;> decide
  exact endsWithCh_toLower name suffix hfix hends

/-- C9 (witness): a concrete lowercase name accepted by both filters. -/
theorem c9_witness :
    (get_frequency ("a_m.parquet".toList)).isSome = true ∧
    is_excluded ("a_m.parquet".toList) = false ∧
    is_relevant_parquet ("a_m.parquet".toList) = true :=
  ⟨by decide, by decide,
    c9_relevance_vs_inventory.2 ("a_m.parquet".toList) (by decide) (by decide)⟩

/-! ## C3: the Change Detector's classification -/

/-- A store whose ledger has an entry for path "p" recorded under a country
that is not among the selected countries. -/
def c3st : Store := ⟨[], [], [⟨"p", "other", "m", 5, 1, 0⟩], 0⟩

/-- A current file at path "p" with the same mtime as the ledger entry. -/
def c3f : FileInfo := ⟨"p", "jp", "m", 5, none⟩

/-- C3 (counterexample): the ledger has an entry for the file's path with an
identical stored mtime, yet detect_changed_files classifies the file as
changed, because the lookup only sees ledger entries of the selected
countries.  This refutes the claim's unscoped "no ledger entry exists for its
path" reading. -/
theorem c3_counterexample :
    c3f ∈ (detect_changed_files c3st [c3f] ["jp"]).1 ∧
    ∃ q ∈ c3st.processed, q.filepath = c3f.path ∧ q.mtime = c3f.mtime := by
  decide

/-- C3 (amended): a current file is classified changed iff the ledger
restricted to the selected countries has no entry for its path or the stored
mtime differs (any difference); the remaining files are counted unchanged;
and the removed classification is exactly the selected countries' ledger
paths absent from the current inventory. -/
theorem c3_change_detector (st : Store) (files : List FileInfo)
    (countries : List String) :
    (∀ f, f ∈ (detect_changed_files st files countries).1 ↔
        f ∈ files ∧ ((ledgerFor st countries).lookup f.path = none ∨
          ∃ m, (ledgerFor st countries).lookup f.path = some m ∧ m ≠ f.mtime)) ∧
    ((detect_changed_files st files countries).1.length +
        (detect_changed_files st files countries).2.1 = files.length) ∧
    (∀ p, p ∈ (detect_changed_files st files countries).2.2 ↔
        ((∃ q ∈ st.processed, q.filepath = p ∧ countries.contains q.country = true) ∧
         ∀ f ∈ files, f.path ≠ p)) := by
  refine ⟨?_, ?_, ?_⟩
  · intro f
    simp only [detect_changed_files, List.mem_filter]
    constructor
    · rintro ⟨hmem, hpred⟩
      refine ⟨hmem, ?_⟩
      unfold changePred at hpred
      cases hl : (ledgerFor st countries).lookup f.path with
      | none => exact Or.inl rfl
      | some m =>
        rw [hl] at hpred
        simp only [bne_iff_ne] at hpred
        exact Or.inr ⟨m, rfl, hpred⟩
    · rintro ⟨hmem, hdis⟩
      refine ⟨hmem, ?_⟩
      unfold changePred
      rcases hdis with hnone | ⟨m, hsome, hne⟩
      · rw [hnone]
      · rw [hsome]
        simpa [bne_iff_ne] using hne
  · simp only [detect_changed_files]
    have h : files.length = (files.filter (changePred st countries)).length +
        (files.filter (fun x => !(changePred st countries x))).length :=
      List.length_eq_length_filter_add (changePred st countries)
    omega
  · intro p
    have h1 : p ∈ (detect_changed_files st files countries).2.2 ↔
        (p ∈ (ledgerFor st countries).map (fun q => q.1) ∧
          p ∉ files.map (fun f => f.path)) := by
      simp [detect_changed_files, List.mem_filter]
    have h2 : p ∈ (ledgerFor st countries).map (fun q => q.1) ↔
        ∃ q ∈ st.processed, q.filepath = p ∧ countries.contains q.country = true := by
      simp only [ledgerFor, List.map_map, List.mem_map, List.mem_filter,
        Function.comp]
      constructor
      · rintro ⟨q, ⟨hq, hc⟩, hp⟩
        exact ⟨q, hq, hp, hc⟩
      · rintro ⟨q, hq, hp, hc⟩
        exact ⟨q, ⟨hq, hc⟩, hp⟩
    have h3 : p ∉ files.map (fun f => f.path) ↔ ∀ f ∈ files, f.path ≠ p := by
      simp
    rw [h1, h2, h3]

/-! ## C6 and C7: the Watch Trigger -/

/-- C6: three relevant file events at times t, t+5, t+10 (gaps below the
30-second debounce window), starting from the idle watcher state, produce
exactly one sync run, started at (t+10)+30 (30 seconds after the last event)
with a country set containing the countries of all three events, and the
watcher returns to idle; moreover every event in a non-updating state cancels
the pending timer and restarts it DEBOUNCE_SECONDS after that event. -/
theorem c6_debounce (t : Nat) (c1 c2 c3 : String) :
    execEvents ⟨none, [], false⟩ [(t, c1), (t + 5, c2), (t + 10, c3)] =
      (⟨none, [], false⟩,
        [(t + 10 + 30, List.insert c3 (List.insert c2 [c1]))]) ∧
    (c1 ∈ List.insert c3 (List.insert c2 [c1]) ∧
     c2 ∈ List.insert c3 (List.insert c2 [c1]) ∧
     c3 ∈ List.insert c3 (List.insert c2 [c1])) ∧
    (∀ (d : Nat) (cs : List String) (c : String) (now : Nat),
      on_relevant_change ⟨some d, cs, false⟩ c now =
        ⟨some (now + DEBOUNCE_SECONDS), cs.insert c, false⟩) := by
  refine ⟨?_, ⟨?_, ?_, ?_⟩, ?_⟩
  · have h1 : ¬ (t + 30 ≤ t + 5) := by omega
    have h2 : ¬ (t + 5 + 30 ≤ t + 10) := by omega
    simp [execEvents, on_relevant_change, run_update_start, run_update_finish,
      DEBOUNCE_SECONDS, h1, h2]
  · simp [List.mem_insert_iff]
  · simp [List.mem_insert_iff]
  · simp [List.mem_insert_iff]
  · intro d cs c now
    simp [on_relevant_change]

/-- C7: (a) an event arriving while an update is in flight only inserts its
country into the queued set, leaving the timer and the updating flag alone,
so the in-flight run is never interrupted; (b) when the run finishes with a
nonempty queued set, exactly one follow-up timer is scheduled a fresh
DEBOUNCE_SECONDS later, keeping the queued countries pending; (c) when that
follow-up timer fires, the run it starts covers exactly the queued countries;
(d) when the run finishes with nothing queued, the watcher is back in the
idle state. -/
theorem c7_event_during_run :
    (∀ (tm : Option Nat) (cs : List String) (c : String) (now : Nat),
      on_relevant_change ⟨tm, cs, true⟩ c now = ⟨tm, cs.insert c, true⟩) ∧
    (∀ (tm : Option Nat) (c : String) (cs : List String) (now : Nat),
      run_update_finish ⟨tm, c :: cs, true⟩ now =
        ⟨some (now + DEBOUNCE_SECONDS), c :: cs, false⟩) ∧
    (∀ (c : String) (cs : List String) (now : Nat),
      run_update_start ⟨some (now + DEBOUNCE_SECONDS), c :: cs, false⟩ =
        (⟨none, [], true⟩, c :: cs)) ∧
    (∀ now : Nat, run_update_finish ⟨none, [], true⟩ now = ⟨none, [], false⟩) := by
  refine ⟨?_, ?_, ?_, ?_⟩
  · intro tm cs c now
    simp [on_relevant_change]
  · intro tm c cs now
    simp [run_update_finish]
  · intro c cs now
    simp [run_update_start]
  · intro now
    simp [run_update_finish]

/-! ## Helper lemmas: which tables each operation touches -/

/-- Folding store transformers that preserve a projection preserves it. -/
theorem foldl_preserve {α β : Type} (g : Store → β) (f : Store → α → Store)
    (h : ∀ s a, g (f s a) = g s) : ∀ (l : List α) (st : Store),
    g (l.foldl f st) = g st := by
  intro l
  induction l with
  | nil => intro st; rfl
  | cons a as ih =>
    intro st
    rw [List.foldl_cons, ih, h]

/-- A series upsert leaves the ledger untouched. -/
theorem upsertSeries_processed (st : Store) (n co fr sf : String) (a b k : Nat) :
    (upsertSeries st n co fr sf a b k).processed = st.processed := by
  unfold upsertSeries
  split <;> rfl

/-- A series upsert leaves the data table untouched. -/
theorem upsertSeries_data (st : Store) (n co fr sf : String) (a b k : Nat) :
    (upsertSeries st n co fr sf a b k).data = st.data := by
  unfold upsertSeries
  split <;> rfl

/-- The whole upsert batch leaves the ledger untouched. -/
theorem upsertAll_processed (c : ParquetContent) (co fr sf : String)
    (st : Store) (names : List String) :
    (upsertAll c co fr sf st names).processed = st.processed :=
  foldl_preserve (fun s => s.processed) _
    (fun s n => upsertSeries_processed s n co fr sf _ _ _) names st

/-- The whole upsert batch leaves the data table untouched. -/
theorem upsertAll_data (c : ParquetContent) (co fr sf : String)
    (st : Store) (names : List String) :
    (upsertAll c co fr sf st names).data = st.data :=
  foldl_preserve (fun s => s.data) _
    (fun s n => upsertSeries_data s n co fr sf _ _ _) names st

/-- The loader never writes the ledger (step 9 lives in the orchestrator). -/
theorem load_processed (st : Store) (content : Option ParquetContent)
    (co fr sf : String) :
    (load_parquet_file st content co fr sf).1.processed = st.processed := by
  cases content with
  | none => rfl
  | some c =>
    simp only [load_parquet_file]
    split
    · rfl
    split
    · rfl
    split
    · rfl
    split
    · exact upsertAll_processed c co fr sf st _
    · rfl

/-- Recording a ledger entry leaves the series table untouched. -/
theorem record_series (st : Store) (fp co fr : String) (m k now : Nat) :
    (record_processed st fp co fr m k now).series = st.series := by
  unfold record_processed
  split <;> rfl

/-- Recording a ledger entry leaves the data table untouched. -/
theorem record_data (st : Store) (fp co fr : String) (m k now : Nat) :
    (record_processed st fp co fr m k now).data = st.data := by
  unfold record_processed
  split <;> rfl

/-! ## Helper lemmas: absence of a source file's rows -/

/-- No series row is attributed to source file `fp`. -/
def seriesNoSource (st : Store) (fp : String) : Prop :=
  ∀ r ∈ st.series, r.source_file ≠ fp

/-- No ledger entry exists for path `fp`. -/
def procNoPath (st : Store) (fp : String) : Prop :=
  ∀ q ∈ st.processed, q.filepath ≠ fp

theorem seriesOfSource_eq_nil (st : Store) (fp : String)
    (h : seriesNoSource st fp) : seriesOfSource st fp = [] := by
  rw [seriesOfSource, List.filter_eq_nil_iff]
  intro r hr
  simp [h r hr]

theorem dataOfSource_eq_nil (st : Store) (fp : String)
    (h : seriesNoSource st fp) : dataOfSource st fp = [] := by
  rw [dataOfSource, List.filter_eq_nil_iff]
  intro d _
  rw [seriesOfSource_eq_nil st fp h]
  simp

theorem procOf_eq_nil (st : Store) (fp : String)
    (h : procNoPath st fp) : procOf st fp = [] := by
  rw [procOf, List.filter_eq_nil_iff]
  intro q hq
  simp [h q hq]

/-- remove_file_data establishes the absence of `fp`-sourced series rows:
every series row with this source file has its id selected for deletion. -/
theorem remove_establishes_series (st : Store) (fp : String) :
    seriesNoSource (remove_file_data st fp).1 fp := by
  intro r hr hsf
  simp only [remove_file_data, List.mem_filter] at hr
  have hmem : r.id ∈ (st.series.filter
      (fun r => r.source_file == fp)).map (fun r => r.id) :=
    List.mem_map.mpr ⟨r, List.mem_filter.mpr ⟨hr.1, by simp [hsf]⟩, rfl⟩
  rw [← List.elem_iff] at hmem
  rw [Bool.not_eq_true', List.contains] at hr
  rw [hr.2] at hmem
  exact absurd hmem (by simp)

/-- remove_file_data deletes the ledger entry for `fp`. -/
theorem remove_establishes_proc (st : Store) (fp : String) :
    procNoPath (remove_file_data st fp).1 fp := by
  intro q hq
  simp only [remove_file_data, List.mem_filter, Bool.not_eq_true', beq_eq_false_iff_ne,
    ne_eq] at hq
  exact hq.2

/-- remove_file_data only deletes series rows, so absence is preserved. -/
theorem remove_preserves_series (st : Store) (fp p2 : String)
    (h : seriesNoSource st fp) : seriesNoSource (remove_file_data st p2).1 fp := by
  intro r hr
  simp only [remove_file_data, List.mem_filter] at hr
  exact h r hr.1

/-- remove_file_data only deletes ledger entries, so absence is preserved. -/
theorem remove_preserves_proc (st : Store) (fp p2 : String)
    (h : procNoPath st fp) : procNoPath (remove_file_data st p2).1 fp := by
  intro q hq
  simp only [remove_file_data, List.mem_filter] at hq
  exact h q hq.1

/-- An upsert with a source file other than `fp` preserves the absence of
`fp`-sourced series rows (updated rows get the new source file). -/
theorem upsertSeries_preserves_noSource (st : Store) (n co fr sf fp : String)
    (a b k : Nat) (hsf : sf ≠ fp) (h : seriesNoSource st fp) :
    seriesNoSource (upsertSeries st n co fr sf a b k) fp := by
  intro r hr
  unfold upsertSeries at hr
  split at hr
  · simp only [List.mem_map] at hr
    obtain ⟨r0, hr0, heq⟩ := hr
    by_cases hc : (r0.name == n && r0.frequency == fr) = true
    · rw [if_pos hc] at heq
      rw [← heq]
      exact hsf
    · rw [if_neg hc] at heq
      rw [← heq]
      exact h r0 hr0
  · simp only [List.mem_append, List.mem_singleton] at hr
    rcases hr with hr | hr
    · exact h r hr
    · rw [hr]
      exact hsf

/-- The upsert batch preserves the absence of `fp`-sourced series rows. -/
theorem upsertAll_preserves_noSource (c : ParquetContent) (co fr sf fp : String)
    (hsf : sf ≠ fp) : ∀ (names : List String) (st : Store),
    seriesNoSource st fp → seriesNoSource (upsertAll c co fr sf st names) fp := by
  intro names
  induction names with
  | nil => intro st h; exact h
  | cons n rest ih =>
    intro st h
    exact ih _ (upsertSeries_preserves_noSource st n co fr sf fp _ _ _ hsf h)

/-- Loading a file whose source path is not `fp` preserves the absence of
`fp`-sourced series rows. -/
theorem load_preserves_noSource (st : Store) (content : Option ParquetContent)
    (co fr sf fp : String) (hsf : sf ≠ fp) (h : seriesNoSource st fp) :
    seriesNoSource (load_parquet_file st content co fr sf).1 fp := by
  cases content with
  | none => exact h
  | some c =>
    simp only [load_parquet_file]
    split
    · exact h
    split
    · exact h
    split
    · exact h
    split
    · intro r hr
      exact upsertAll_preserves_noSource c co fr sf fp hsf _ st h r hr
    · exact h

/-- Recording a ledger entry for a path other than `fp` preserves the absence
of `fp` ledger entries (a conflict update never changes the filepath). -/
theorem record_preserves_noPath (st : Store) (fp fp2 co fr : String)
    (m k now : Nat) (hne : fp2 ≠ fp) (h : procNoPath st fp) :
    procNoPath (record_processed st fp2 co fr m k now) fp := by
  intro q hq
  unfold record_processed at hq
  split at hq
  · simp only [List.mem_map] at hq
    obtain ⟨q0, hq0, heq⟩ := hq
    by_cases hc : (q0.filepath == fp2) = true
    · rw [if_pos hc] at heq
      rw [← heq]
      exact h q0 hq0
    · rw [if_neg hc] at heq
      rw [← heq]
      exact h q0 hq0
  · simp only [List.mem_append, List.mem_singleton] at hq
    rcases hq with hq | hq
    · exact h q hq
    · rw [hq]
      exact hne

/-- Processing a changed file with a path other than `fp` preserves the
absence of `fp`-sourced rows and `fp` ledger entries. -/
theorem process_preserves (st : Store) (f : FileInfo) (now : Nat) (fp : String)
    (hne : f.path ≠ fp) (hs : seriesNoSource st fp) (hp : procNoPath st fp) :
    seriesNoSource (process_changed_file st f now) fp ∧
    procNoPath (process_changed_file st f now) fp := by
  unfold process_changed_file
  have hs1 := remove_preserves_series st fp f.path hs
  have hp1 := remove_preserves_proc st fp f.path hp
  have hs2 := load_preserves_noSource _ f.content f.country f.freq f.path fp hne hs1
  have hp2 : procNoPath (load_parquet_file (remove_file_data st f.path).1
      f.content f.country f.freq f.path).1 fp := by
    intro q hq
    rw [load_processed] at hq
    exact hp1 q hq
  dsimp only
  split
  · constructor
    · intro r hr
      rw [record_series] at hr
      exact hs2 r hr
    · exact record_preserves_noPath _ fp f.path f.country f.freq f.mtime _ now hne hp2
  · exact ⟨hs2, hp2⟩

/-- A failed read makes process_changed_file exactly the committed teardown:
the load writes nothing (transaction rolled back) and no ledger entry is
recorded. -/
theorem process_of_failed_read (st : Store) (f : FileInfo) (now : Nat)
    (hfail : f.content = none) :
    process_changed_file st f now = (remove_file_data st f.path).1 := by
  unfold process_changed_file
  rw [hfail]
  rfl

/-- After the removed-files teardown loop, a path in the removed list has no
series rows and no ledger entry left. -/
theorem foldRemove_establishes (fp : String) : ∀ (rs : List String) (st : Store),
    fp ∈ rs →
    seriesNoSource (rs.foldl (fun s q => (remove_file_data s q).1) st) fp ∧
    procNoPath (rs.foldl (fun s q => (remove_file_data s q).1) st) fp := by
  intro rs
  induction rs with
  | nil => intro st h; exact absurd h (by simp)
  | cons q rest ih =>
    intro st hmem
    rw [List.foldl_cons]
    by_cases hq : fp ∈ rest
    · exact ih _ hq
    · have hfp : q = fp := by
        rcases List.mem_cons.mp hmem with h | h
        · exact h.symm
        · exact absurd h hq
      subst hfp
      constructor
      · have hbase := remove_establishes_series st q
        have hproj : ∀ (l : List String) (s : Store), seriesNoSource s q →
            seriesNoSource (l.foldl (fun s r => (remove_file_data s r).1) s) q := by
          intro l
          induction l with
          | nil => intro s h; exact h
          | cons x xs ihx =>
            intro s h
            exact ihx _ (remove_preserves_series s q x h)
        exact hproj rest _ hbase
      · have hbase := remove_establishes_proc st q
        have hproj : ∀ (l : List String) (s : Store), procNoPath s q →
            procNoPath (l.foldl (fun s r => (remove_file_data s r).1) s) q := by
          intro l
          induction l with
          | nil => intro s h; exact h
          | cons x xs ihx =>
            intro s h
            exact ihx _ (remove_preserves_proc s q x h)
        exact hproj rest _ hbase

/-- The changed-files loop preserves absence when none of its files has the
path `fp`. -/
theorem foldProcess_preserves (fp : String) (now : Nat) :
    ∀ (cs : List FileInfo) (st : Store), (∀ f ∈ cs, f.path ≠ fp) →
    seriesNoSource st fp → procNoPath st fp →
    seriesNoSource (cs.foldl (fun s f => process_changed_file s f now) st) fp ∧
    procNoPath (cs.foldl (fun s f => process_changed_file s f now) st) fp := by
  intro cs
  induction cs with
  | nil => intro st _ hs hp; exact ⟨hs, hp⟩
  | cons f rest ih =>
    intro st hne hs hp
    rw [List.foldl_cons]
    have hstep := process_preserves st f now fp (hne f (by simp)) hs hp
    exact ih _ (fun g hg => hne g (by simp [hg])) hstep.1 hstep.2

/-! ## Lookup helpers -/

/-- Entries whose key differs from `k` are skipped by lookup. -/
theorem lookup_append_left_none {β : Type} (l1 l2 : List (String × β)) (k : String)
    (h : ∀ x ∈ l1, k ≠ x.1) : (l1 ++ l2).lookup k = l2.lookup k := by
  induction l1 with
  | nil => rfl
  | cons a as ih =>
    rw [List.cons_append]
    cases a with
    | mk a1 a2 =>
      have hne : (k == a1) = false := beq_eq_false_iff_ne.mpr (h (a1, a2) (by simp))
      simp only [List.lookup, hne]
      exact ih (fun x hx => h x (by simp [hx]))

/-- A lookup over keys all different from `k` finds nothing. -/
theorem lookup_eq_none_of_all_ne {β : Type} (l : List (String × β)) (k : String)
    (h : ∀ x ∈ l, k ≠ x.1) : l.lookup k = none := by
  have h2 := lookup_append_left_none l [] k h
  rw [List.append_nil] at h2
  exact h2

/-- Rows surviving the teardown filter can never match the removed path. -/
theorem filter_any_filepath_false (l : List ProcRow) (fp : String) :
    ((l.filter (fun p => !(p.filepath == fp))).any (fun p => p.filepath == fp)) = false := by
  rw [← Bool.not_eq_true, List.any_eq_true]
  rintro ⟨p, hp, hfp⟩
  rw [List.mem_filter, hfp] at hp
  exact absurd hp.2 (by simp)

/-- When no ledger entry has path `fp`, the country-scoped ledger lookup for
`fp` finds nothing. -/
theorem ledger_lookup_none (st : Store) (countries : List String) (fp : String)
    (h : procNoPath st fp) : (ledgerFor st countries).lookup fp = none := by
  apply lookup_eq_none_of_all_ne
  intro x hx
  unfold ledgerFor at hx
  rw [List.mem_map] at hx
  obtain ⟨q, hq, hxq⟩ := hx
  rw [List.mem_filter] at hq
  rw [← hxq]
  intro hcon
  exact h q hq.1 hcon.symm

/-! ## C5: ledger recording after ingestion -/

/-- A file whose content has no Date column: legitimately ingested as zero
series. -/
def c5f : FileInfo := ⟨"z", "jp", "m", 5, some ⟨false, [], []⟩⟩

/-- The empty store. -/
def c5st : Store := ⟨[], [], [], 1⟩

/-- C5 (counterexample): after the sync ingests a zero-series file (missing
date column), no ProcessedFileEntry is recorded, and on the next run the same
file is classified as changed again — contradicting the claim that the entry
is recorded after every ingestion including zero-series files. -/
theorem c5_counterexample :
    (incremental_update c5st [c5f] ["jp"] 7).processed = [] ∧
    c5f ∈ (detect_changed_files (incremental_update c5st [c5f] ["jp"] 7)
      [c5f] ["jp"]).1 := by
  decide

/-- C5 (amended): whenever the load reports a positive series count, the
orchestrator records the ProcessedFileEntry for the file with the new mtime,
the series count and the processing time, and on a re-scan with the same
mtime the file is no longer classified as changed.  Files ingested as zero
series (missing date column, no value columns, empty long frame — and failed
loads, which are indistinguishable from them by the count) get no entry and
stay classified as changed. -/
theorem c5_ledger_recorded (st : Store) (f : FileInfo) (now : Nat)
    (hk : 0 < (load_parquet_file (remove_file_data st f.path).1
        f.content f.country f.freq f.path).2) :
    (⟨f.path, f.country, f.freq, f.mtime,
      (load_parquet_file (remove_file_data st f.path).1
        f.content f.country f.freq f.path).2, now⟩ : ProcRow) ∈
      (process_changed_file st f now).processed ∧
    (detect_changed_files (process_changed_file st f now) [f] [f.country]).1 = [] := by
  have hproc : (load_parquet_file (remove_file_data st f.path).1
      f.content f.country f.freq f.path).1.processed
      = st.processed.filter (fun p => !(p.filepath == f.path)) := by
    rw [load_processed]
    rfl
  have hres : (process_changed_file st f now).processed =
      st.processed.filter (fun p => !(p.filepath == f.path)) ++
        [⟨f.path, f.country, f.freq, f.mtime,
          (load_parquet_file (remove_file_data st f.path).1
            f.content f.country f.freq f.path).2, now⟩] := by
    unfold process_changed_file
    dsimp only
    rw [if_pos hk]
    unfold record_processed
    rw [hproc, filter_any_filepath_false]
    simp
  constructor
  · rw [hres]
    simp
  · have hpred : changePred (process_changed_file st f now) [f.country] f = false := by
      unfold changePred
      have hled : (ledgerFor (process_changed_file st f now) [f.country]).lookup f.path
          = some f.mtime := by
        unfold ledgerFor
        rw [hres, List.filter_append, List.map_append]
        rw [lookup_append_left_none]
        · have hc : ([f.country].contains f.country) = true := by simp
          simp [hc, List.lookup]
        · intro x hx
          rw [List.mem_map] at hx
          obtain ⟨q, hq, hxq⟩ := hx
          rw [List.mem_filter] at hq
          have hq2 := hq.1
          rw [List.mem_filter] at hq2
          intro hcon
          rw [← hxq] at hcon
          have hqf : q.filepath = f.path := hcon.symm
          have hbad := hq2.2
          rw [hqf] at hbad
          simp at hbad
      rw [hled]
      simp
    unfold detect_changed_files
    dsimp only
    rw [List.filter_cons, hpred]
    simp

/-- C5 (witness): a one-series file on an empty store is recorded in the
ledger and is not reclassified as changed. -/
def c5wf : FileInfo := ⟨"p", "jp", "m", 5, some ⟨true, [1], [("a", [some 2])]⟩⟩

theorem c5_witness :
    0 < (load_parquet_file (remove_file_data c5st c5wf.path).1
        c5wf.content c5wf.country c5wf.freq c5wf.path).2 ∧
    ((⟨c5wf.path, c5wf.country, c5wf.freq, c5wf.mtime,
        (load_parquet_file (remove_file_data c5st c5wf.path).1
          c5wf.content c5wf.country c5wf.freq c5wf.path).2, 7⟩ : ProcRow) ∈
      (process_changed_file c5st c5wf 7).processed ∧
     (detect_changed_files (process_changed_file c5st c5wf 7)
        [c5wf] [c5wf.country]).1 = []) :=
  ⟨by decide, c5_ledger_recorded c5st c5wf 7 (by decide)⟩

/-! ## C1 and C2: teardown and failure behavior of incremental_update -/

/-- Reduction of incremental_update to its two folds on the main path. -/
theorem incremental_update_main (st : Store) (files : List FileInfo)
    (countries : List String) (now : Nat) (hne : files ≠ [])
    (hsome : ¬((detect_changed_files st files countries).1 = [] ∧
              (detect_changed_files st files countries).2.2 = [])) :
    incremental_update st files countries now =
      (detect_changed_files st files countries).1.foldl
        (fun s f => process_changed_file s f now)
        ((detect_changed_files st files countries).2.2.foldl
          (fun s fp => (remove_file_data s fp).1) st) := by
  unfold incremental_update
  have h1 : files.isEmpty = false := by
    cases files with
    | nil => exact absurd rfl hne
    | cons a as => rfl
  rw [h1]
  have h2 : ((detect_changed_files st files countries).1.isEmpty &&
      (detect_changed_files st files countries).2.2.isEmpty) = false := by
    rw [← Bool.not_eq_true, Bool.and_eq_true, List.isEmpty_iff, List.isEmpty_iff]
    exact hsome
  dsimp only
  rw [h2]
  rfl

/-- After the changed-files loop, a member file that could not be read has no
series rows and no ledger entry (its teardown was committed, its reload wrote
nothing, and no other file of the loop shares its path). -/
theorem foldProcess_establishes (f : FileInfo) (now : Nat)
    (hfail : f.content = none) :
    ∀ (cs : List FileInfo) (st : Store), (cs.map (fun g => g.path)).Nodup →
    f ∈ cs →
    seriesNoSource (cs.foldl (fun s g => process_changed_file s g now) st) f.path ∧
    procNoPath (cs.foldl (fun s g => process_changed_file s g now) st) f.path := by
  intro cs
  induction cs with
  | nil => intro st _ h; simp at h
  | cons g rest ih =>
    intro st hnd hmem
    rw [List.foldl_cons]
    rcases List.mem_cons.mp hmem with he | hm
    · have hg : g = f := he.symm
      subst hg
      rw [process_of_failed_read st g now hfail]
      have hnd2 : (∀ x ∈ rest, ¬ x.path = g.path) ∧
          (rest.map (fun g2 => g2.path)).Nodup := by simpa using hnd
      have hpaths : ∀ h2 ∈ rest, h2.path ≠ g.path := fun h2 hh2 => hnd2.1 h2 hh2
      exact foldProcess_preserves g.path now rest _ hpaths
        (remove_establishes_series st g.path) (remove_establishes_proc st g.path)
    · have hnd2 : (∀ x ∈ rest, ¬ x.path = g.path) ∧
          (rest.map (fun g2 => g2.path)).Nodup := by simpa using hnd
      exact ih _ hnd2.2 hm

/-- The store that ingested file "p" (one series with two data points), with
its ledger entry at mtime 5. -/
def c1st : Store :=
  ⟨[⟨1, "a", "jp", "m", "p", 2, 3, 2⟩], [⟨1, 2, 30⟩, ⟨1, 3, 10⟩],
   [⟨"p", "jp", "m", 5, 1, 0⟩], 2⟩

/-- The same file, with a newer mtime, whose re-read raises an error. -/
def c1f : FileInfo := ⟨"p", "jp", "m", 6, none⟩

/-- C1 (counterexample): a previously ingested file is classified as changed
and its reload raises; afterwards the store does NOT contain the series and
data rows it contained before the attempt, and the previous ledger entry is
gone — the committed remove_file_data that precedes the load is not rolled
back.  This refutes the claim's "store afterwards contains exactly the rows
it contained before" and "previous ProcessedFileEntry left untouched". -/
theorem c1_counterexample :
    (incremental_update c1st [c1f] ["jp"] 9).series = [] ∧ c1st.series ≠ [] ∧
    (incremental_update c1st [c1f] ["jp"] 9).processed = [] ∧
    c1st.processed ≠ [] := by
  decide

/-- C1 (amended): when a changed file's reload fails, the load itself writes
nothing (its transaction is rolled back and it returns zero), and the file is
classified as changed again on the next run, so it is retried; but the store
does not keep the file's previous contribution: after the sync, no series
row, no data row and no ledger entry for that path remain, because the
preceding remove_file_data committed its teardown before the failed load. -/
theorem c1_failed_load (st : Store) (files : List FileInfo)
    (countries : List String) (now : Nat) (f : FileInfo)
    (hmem : f ∈ files) (hfail : f.content = none)
    (hch : changePred st countries f = true)
    (hnd : (files.map (fun g => g.path)).Nodup) :
    (∀ s : Store, load_parquet_file s f.content f.country f.freq f.path = (s, 0)) ∧
    seriesOfSource (incremental_update st files countries now) f.path = [] ∧
    dataOfSource (incremental_update st files countries now) f.path = [] ∧
    procOf (incremental_update st files countries now) f.path = [] ∧
    f ∈ (detect_changed_files (incremental_update st files countries now)
      [f] [f.country]).1 := by
  have hf_changed : f ∈ (detect_changed_files st files countries).1 :=
    List.mem_filter.mpr ⟨hmem, hch⟩
  have hmain := incremental_update_main st files countries now
    (by rintro rfl; simp at hmem)
    (by
      rintro ⟨hc, _⟩
      rw [hc] at hf_changed
      simp at hf_changed)
  have hcn : ((detect_changed_files st files countries).1.map
      (fun g => g.path)).Nodup := by
    have hsub : (detect_changed_files st files countries).1.Sublist files :=
      List.filter_sublist files
    exact hnd.sublist (hsub.map (fun g => g.path))
  have hkill := foldProcess_establishes f now hfail
    (detect_changed_files st files countries).1
    ((detect_changed_files st files countries).2.2.foldl
      (fun s fp => (remove_file_data s fp).1) st) hcn hf_changed
  rw [← hmain] at hkill
  refine ⟨?_, ?_, ?_, ?_, ?_⟩
  · intro s
    rw [hfail]
    rfl
  · exact seriesOfSource_eq_nil _ _ hkill.1
  · exact dataOfSource_eq_nil _ _ hkill.1
  · exact procOf_eq_nil _ _ hkill.2
  · apply List.mem_filter.mpr
    refine ⟨by simp, ?_⟩
    unfold changePred
    rw [ledger_lookup_none _ _ _ hkill.2]

/-- C1 (witness): the amended statement at the concrete failing scenario. -/
theorem c1_witness :
    (∀ s : Store, load_parquet_file s c1f.content c1f.country c1f.freq c1f.path = (s, 0)) ∧
    seriesOfSource (incremental_update c1st [c1f] ["jp"] 9) c1f.path = [] ∧
    dataOfSource (incremental_update c1st [c1f] ["jp"] 9) c1f.path = [] ∧
    procOf (incremental_update c1st [c1f] ["jp"] 9) c1f.path = [] ∧
    c1f ∈ (detect_changed_files (incremental_update c1st [c1f] ["jp"] 9)
      [c1f] [c1f.country]).1 :=
  c1_failed_load c1st [c1f] ["jp"] 9 c1f (by decide) (by decide) (by decide) (by decide)

/-- The changed-files loop preserves absence when no current file has path
`fp` (changed files come from the inventory). -/
theorem foldRemove_preserves (fp : String) :
    ∀ (rs : List String) (st : Store), seriesNoSource st fp → procNoPath st fp →
    seriesNoSource (rs.foldl (fun s q => (remove_file_data s q).1) st) fp ∧
    procNoPath (rs.foldl (fun s q => (remove_file_data s q).1) st) fp := by
  intro rs
  induction rs with
  | nil => intro st hs hp; exact ⟨hs, hp⟩
  | cons q rest ih =>
    intro st hs hp
    rw [List.foldl_cons]
    exact ih _ (remove_preserves_series st fp q hs) (remove_preserves_proc st fp q hp)

/-- The store that ingested file "p" (one series, one data point), with its
ledger entry. -/
def c2st : Store :=
  ⟨[⟨1, "x", "jp", "m", "p", 2, 2, 1⟩], [⟨1, 2, 30⟩],
   [⟨"p", "jp", "m", 5, 1, 0⟩], 2⟩

/-- C2 (counterexample): when deleting the file leaves the country's
inventory empty, incremental_update returns before running change detection,
so the deleted file's series rows and ledger entry survive the sync —
refuting the claim's "this holds in particular when the inventory becomes
empty". -/
theorem c2_counterexample :
    incremental_update c2st [] ["jp"] 9 = c2st ∧
    seriesOfSource c2st "p" ≠ [] ∧ procOf c2st "p" ≠ [] := by
  decide

/-- C2 (amended): if the sync's inventory for the selected countries is
nonempty, then for a previously ingested file that is gone from the
inventory (its ledger entry's country is among the selected ones, and no
current file has its path), after incremental_update no series row, no data
row and no ledger entry for that path remain.  When the inventory is empty
the sync returns early and the stale rows survive. -/
theorem c2_removed_teardown (st : Store) (files : List FileInfo)
    (countries : List String) (now : Nat) (fp : String)
    (hne : files ≠ [])
    (hentry : ∃ q ∈ st.processed, q.filepath = fp ∧
      countries.contains q.country = true)
    (hgone : ∀ f ∈ files, f.path ≠ fp) :
    seriesOfSource (incremental_update st files countries now) fp = [] ∧
    dataOfSource (incremental_update st files countries now) fp = [] ∧
    procOf (incremental_update st files countries now) fp = [] := by
  obtain ⟨q, hq, hqf, hqc⟩ := hentry
  have hrem : fp ∈ (detect_changed_files st files countries).2.2 := by
    unfold detect_changed_files
    dsimp only
    rw [List.mem_filter]
    constructor
    · unfold ledgerFor
      rw [List.map_map, List.mem_map]
      exact ⟨q, List.mem_filter.mpr ⟨hq, hqc⟩, by simpa using hqf⟩
    · rw [Bool.not_eq_true']
      rw [← Bool.not_eq_true, List.elem_iff]
      intro hcon
      obtain ⟨f, hf, hfp⟩ := List.mem_map.mp hcon
      exact hgone f hf hfp
  have hmain := incremental_update_main st files countries now hne
    (by
      rintro ⟨_, hr⟩
      rw [hr] at hrem
      simp at hrem)
  have hkill1 := foldRemove_establishes fp (detect_changed_files st files countries).2.2
    st hrem
  have hkill := foldProcess_preserves fp now (detect_changed_files st files countries).1
    _ (fun f hf => hgone f (List.mem_of_mem_filter hf)) hkill1.1 hkill1.2
  rw [← hmain] at hkill
  exact ⟨seriesOfSource_eq_nil _ _ hkill.1, dataOfSource_eq_nil _ _ hkill.1,
    procOf_eq_nil _ _ hkill.2⟩

/-- C2 (witness): the amended statement at a concrete removal scenario with a
nonempty inventory (another file "q" is still present). -/
def c2wf : FileInfo := ⟨"q", "jp", "m", 1, some ⟨true, [4], [("y", [some 7])]⟩⟩

theorem c2_witness :
    seriesOfSource (incremental_update c2st [c2wf] ["jp"] 9) "p" = [] ∧
    dataOfSource (incremental_update c2st [c2wf] ["jp"] 9) "p" = [] ∧
    procOf (incremental_update c2st [c2wf] ["jp"] 9) "p" = [] :=
  c2_removed_teardown c2st [c2wf] ["jp"] 9 "p" (by decide)
    ⟨⟨"p", "jp", "m", 5, 1, 0⟩, by decide, by decide, by decide⟩ (by decide)

/-! ## C10: total_data_points in the stats table -/

/-- Filtering by a finer predicate first does not change a filter whose
matches all satisfy the first predicate. -/
theorem filter_filter_of_imp {α : Type} (p q : α → Bool) (l : List α)
    (h : ∀ x ∈ l, q x = true → p x = true) :
    (l.filter p).filter q = l.filter q := by
  induction l with
  | nil => rfl
  | cons a as ih =>
    have ih2 := ih (fun x hx => h x (by simp [hx]))
    by_cases hq : q a = true
    · have hp := h a (by simp) hq
      rw [List.filter_cons, List.filter_cons, if_pos hp, List.filter_cons,
        if_pos hq, if_pos hq, ih2]
    · rw [Bool.not_eq_true] at hq
      by_cases hp : p a = true
      · rw [List.filter_cons, if_pos hp, List.filter_cons, hq, List.filter_cons, hq]
        simp [ih2]
      · rw [Bool.not_eq_true] at hp
        rw [List.filter_cons, hp, List.filter_cons, hq]
        simp [ih2]

/-- When series ids are distinct and every data row references a series row,
the sum over series rows of their actual data-row counts is the size of the
data table. -/
theorem sum_counts_eq_length :
    ∀ (rows : List SeriesRow) (data : List DataRow),
    (rows.map (fun r => r.id)).Nodup →
    (∀ d ∈ data, ∃ r ∈ rows, r.id = d.series_id) →
    (rows.map (fun r =>
      (data.filter (fun d => d.series_id == r.id)).length)).sum = data.length := by
  intro rows
  induction rows with
  | nil =>
    intro data _ href
    cases data with
    | nil => rfl
    | cons d ds =>
      obtain ⟨r, hr, _⟩ := href d (by simp)
      simp at hr
  | cons r rest ih =>
    intro data hnodup href
    rw [List.map_cons, List.sum_cons]
    rw [List.map_cons, List.nodup_cons] at hnodup
    have hsplit : data.length = (data.filter (fun d => d.series_id == r.id)).length +
        (data.filter (fun d => !(d.series_id == r.id))).length :=
      List.length_eq_length_filter_add _
    rw [hsplit]
    have heq : rest.map (fun r2 =>
        (data.filter (fun d => d.series_id == r2.id)).length) = rest.map (fun r2 =>
        ((data.filter (fun d => !(d.series_id == r.id))).filter
          (fun d => d.series_id == r2.id)).length) := by
      apply List.map_eq_map_iff.mpr
      intro r2 hr2
      rw [filter_filter_of_imp]
      intro d _ hd2
      rw [beq_iff_eq] at hd2
      have hne : r2.id ≠ r.id := by
        intro hcon
        exact hnodup.1 (List.mem_map.mpr ⟨r2, hr2, hcon⟩)
      simp [hd2, hne]
    rw [heq, ih _ hnodup.2]
    · intro d hd
      rw [List.mem_filter] at hd
      obtain ⟨r2, hr2, hid⟩ := href d hd.1
      rcases List.mem_cons.mp hr2 with he | hm
      · rw [he] at hid
        rw [← hid] at hd
        simp at hd
      · exact ⟨r2, hm, hid⟩

/-- A store whose two series rows have drifted counts (3 and 1 instead of
2 and 2) that compensate each other. -/
def c10st : Store :=
  ⟨[⟨1, "a", "jp", "m", "p", 0, 0, 3⟩, ⟨2, "b", "jp", "m", "p", 0, 0, 1⟩],
   [⟨1, 1, 0⟩, ⟨1, 2, 0⟩, ⟨2, 1, 0⟩, ⟨2, 2, 0⟩], [], 3⟩

/-- C10 (counterexample): total_data_points can agree with the actual number
of data rows even though some series row's count does not match its actual
number of DataPoint rows (compensating drifts), refuting the claim's "the two
agree only while every series row's count matches". -/
theorem c10_counterexample :
    (create_stats_table c10st).total_data_points = c10st.data.length ∧
    ∃ r ∈ c10st.series, r.count ≠
      (c10st.data.filter (fun d => d.series_id == r.id)).length := by
  decide

/-- C10 (amended): total_data_points is SUM(count) over series rows (0 when
the table is empty), not the number of rows of the data table; whenever every
series row's count matches its actual number of data rows (given the schema
invariants: distinct ids, every data row referencing a series row), the two
coincide — though they can also coincide accidentally under compensating
drifts. -/
theorem c10_total_data_points (st : Store)
    (hids : (st.series.map (fun r => r.id)).Nodup)
    (hrefs : ∀ d ∈ st.data, ∃ r ∈ st.series, r.id = d.series_id)
    (hacc : ∀ r ∈ st.series, r.count =
      (st.data.filter (fun d => d.series_id == r.id)).length) :
    (create_stats_table st).total_data_points = (st.series.map (fun r => r.count)).sum ∧
    (create_stats_table st).total_data_points = st.data.length := by
  refine ⟨rfl, ?_⟩
  show (st.series.map (fun r => r.count)).sum = st.data.length
  have hmap : st.series.map (fun r => r.count) = st.series.map (fun r =>
      (st.data.filter (fun d => d.series_id == r.id)).length) :=
    List.map_eq_map_iff.mpr hacc
  rw [hmap]
  exact sum_counts_eq_length st.series st.data hids hrefs

/-- C10 (witness): a store with accurate counts. -/
def c10wst : Store :=
  ⟨[⟨1, "a", "jp", "m", "p", 1, 2, 2⟩], [⟨1, 1, 0⟩, ⟨1, 2, 0⟩], [], 2⟩

theorem c10_witness :
    (∀ r ∈ c10wst.series, r.count =
      (c10wst.data.filter (fun d => d.series_id == r.id)).length) ∧
    (create_stats_table c10wst).total_data_points =
      (c10wst.series.map (fun r => r.count)).sum ∧
    (create_stats_table c10wst).total_data_points = c10wst.data.length :=
  ⟨by decide, c10_total_data_points c10wst (by decide) (by decide) (by decide)⟩

/-! ## C8: null handling -/

/-- The dates of the file that carry a non-missing value for series `n`,
read off the raw melted frame (before dropna). -/
def presentDates (c : ParquetContent) (n : String) : List Nat :=
  (meltRaw c).filterMap (fun t =>
    match t with
    | (d, m, some _) => if m == n then some d else none
    | (_, _, none) => none)

/-- The loader's per-series date list (computed after dropna) is exactly the
list of dates with non-missing values for that series. -/
theorem seriesDates_eq_presentDates (c : ParquetContent) (n : String) :
    seriesDates c n = presentDates c n := by
  unfold seriesDates presentDates longRows
  generalize meltRaw c = l
  induction l with
  | nil => rfl
  | cons t rest ih =>
    obtain ⟨d, m, v⟩ := t
    cases v with
    | none => simpa using ih
    | some x =>
      by_cases hm : m = n
      · simpa [List.filterMap_cons, hm] using ih
      · simpa [List.filterMap_cons, hm] using ih

/-- A single upsert only adds or rewrites rows carrying the aggregates passed
to it, together with the key name. -/
theorem upsertSeries_mem (st : Store) (n co fr sf : String) (a b k : Nat) :
    ∀ r ∈ (upsertSeries st n co fr sf a b k).series,
    r ∈ st.series ∨ (r.name = n ∧ r.min_date = a ∧ r.max_date = b ∧ r.count = k) := by
  intro r hr
  unfold upsertSeries at hr
  split at hr
  · simp only [List.mem_map] at hr
    obtain ⟨r0, hr0, heq⟩ := hr
    by_cases hc : (r0.name == n && r0.frequency == fr) = true
    · rw [if_pos hc] at heq
      rw [Bool.and_eq_true, beq_iff_eq, beq_iff_eq] at hc
      right
      rw [← heq]
      exact ⟨hc.1, rfl, rfl, rfl⟩
    · rw [if_neg hc] at heq
      left
      rw [← heq]
      exact hr0
  · simp only [List.mem_append, List.mem_singleton] at hr
    rcases hr with hr | hr
    · exact Or.inl hr
    · right
      rw [hr]
      exact ⟨rfl, rfl, rfl, rfl⟩

/-- Every row of the series table after the upsert batch is either an
untouched pre-existing row or carries exactly the loader's aggregates for its
own name. -/
theorem upsertAll_mem (c : ParquetContent) (co fr sf : String) :
    ∀ (names : List String) (st : Store),
    ∀ r ∈ (upsertAll c co fr sf st names).series,
    r ∈ st.series ∨
      (r.min_date = natMinL (seriesDates c r.name) ∧
       r.max_date = natMaxL (seriesDates c r.name) ∧
       r.count = (seriesDates c r.name).length) := by
  intro names
  induction names with
  | nil => intro st r hr; exact Or.inl hr
  | cons n rest ih =>
    intro st r hr
    rcases ih _ r hr with hl | hr2
    · rcases upsertSeries_mem st n co fr sf _ _ _ r hl with hll | hagg
      · exact Or.inl hll
      · right
        rw [hagg.1]
        exact ⟨hagg.2.1, hagg.2.2.1, hagg.2.2.2⟩
    · exact Or.inr hr2

/-- C8: the loader never stores a missing value as a DataPoint row — every
data row it writes carries a (date, value) present and non-null in the raw
melted file — and every series row it writes or rewrites has min_date,
max_date and count computed only over the dates that have non-missing values
for that series name. -/
theorem c8_null_handling (st : Store) (c : ParquetContent) (co fr sf : String) :
    (∀ dr ∈ (load_parquet_file st (some c) co fr sf).1.data,
      dr ∈ st.data ∨ ∃ n, (dr.date, n, some dr.value) ∈ meltRaw c) ∧
    (∀ r ∈ (load_parquet_file st (some c) co fr sf).1.series,
      r ∈ st.series ∨
        (r.min_date = natMinL (presentDates c r.name) ∧
         r.max_date = natMaxL (presentDates c r.name) ∧
         r.count = (presentDates c r.name).length)) := by
  simp only [load_parquet_file]
  split
  · exact ⟨fun dr hdr => Or.inl hdr, fun r hr => Or.inl hr⟩
  split
  · exact ⟨fun dr hdr => Or.inl hdr, fun r hr => Or.inl hr⟩
  split
  · exact ⟨fun dr hdr => Or.inl hdr, fun r hr => Or.inl hr⟩
  split
  · constructor
    · intro dr hdr
      simp only [List.mem_append] at hdr
      rcases hdr with hdr | hdr
      · rw [List.mem_filter, upsertAll_data] at hdr
        exact Or.inl hdr.1
      · right
        simp only [List.mem_map] at hdr
        obtain ⟨lrow, hlrow, heq⟩ := hdr
        refine ⟨lrow.2.1, ?_⟩
        unfold longRows at hlrow
        rw [List.mem_filterMap] at hlrow
        obtain ⟨t, ht, hft⟩ := hlrow
        obtain ⟨td, tm, tv⟩ := t
        cases tv with
        | none => simp at hft
        | some x =>
          have hft2 : (td, tm, x) = lrow := by simpa using hft
          rw [← heq, ← hft2]
          simpa using ht
    · intro r hr
      rcases upsertAll_mem c co fr sf _ st r hr with hl | hagg
      · exact Or.inl hl
      · right
        rw [seriesDates_eq_presentDates] at hagg
        exact hagg
  · exact ⟨fun dr hdr => Or.inl hdr, fun r hr => Or.inl hr⟩

/-! ## C4: generic list lemmas -/

/-- Filtering a mapped list is mapping the filtered list. -/
theorem filter_of_map {α β : Type} (f : α → β) (q : β → Bool) (l : List α) :
    (l.map f).filter q = (l.filter (fun a => q (f a))).map f := by
  induction l with
  | nil => rfl
  | cons a as ih =>
    by_cases h : q (f a) = true
    · rw [List.map_cons, List.filter_cons, if_pos h, List.filter_cons, if_pos h,
        List.map_cons, ih]
    · rw [Bool.not_eq_true] at h
      rw [List.map_cons, List.filter_cons, h, List.filter_cons, h]
      simpa using ih

/-- Two successive filters are the filter of the conjunction. -/
theorem filter_and {α : Type} (p q : α → Bool) (l : List α) :
    (l.filter p).filter q = l.filter (fun a => p a && q a) := by
  induction l with
  | nil => rfl
  | cons a as ih =>
    cases hpa : p a <;> cases hqa : q a <;>
      simp [List.filter_cons, hpa, hqa, ih]

/-- A flatMap of singletons is a map. -/
theorem flatMap_singleton_eq_map {α β : Type} (f : α → List β) (g : α → β)
    (l : List α) (h : ∀ x ∈ l, f x = [g x]) : l.flatMap f = l.map g := by
  induction l with
  | nil => rfl
  | cons a as ih =>
    rw [List.flatMap_cons, List.map_cons, h a (by simp),
      ih (fun x hx => h x (by simp [hx]))]
    rfl

/-- flatMap respects pointwise equality on members. -/
theorem flatMap_congr_mem {α β : Type} (f g : α → List β) (l : List α)
    (h : ∀ x ∈ l, f x = g x) : l.flatMap f = l.flatMap g := by
  induction l with
  | nil => rfl
  | cons a as ih =>
    rw [List.flatMap_cons, List.flatMap_cons, h a (by simp),
      ih (fun x hx => h x (by simp [hx]))]

/-- Under an id projection without duplicates, filtering for a member's id
returns exactly that member. -/
theorem filter_id_eq_singleton {α : Type} (fid : α → Nat) (l : List α)
    (hnd : (l.map fid).Nodup) (r : α) (hr : r ∈ l) :
    l.filter (fun x => fid x == fid r) = [r] := by
  induction l with
  | nil => simp at hr
  | cons a as ih =>
    rw [List.map_cons, List.nodup_cons] at hnd
    rcases List.mem_cons.mp hr with he | hm
    · subst he
      rw [List.filter_cons, if_pos (by simp)]
      have hnone : as.filter (fun x => fid x == fid r) = [] := by
        rw [List.filter_eq_nil_iff]
        intro x hx hcon
        rw [beq_iff_eq] at hcon
        exact hnd.1 (List.mem_map.mpr ⟨x, hx, hcon⟩)
      rw [hnone]
    · have hane : fid a ≠ fid r := by
        intro hcon
        exact hnd.1 (by rw [hcon]; exact List.mem_map.mpr ⟨r, hm, rfl⟩)
      rw [List.filter_cons, if_neg (by simpa using hane)]
      exact ih hnd.2 hm

/-- A successful lookup finds a member pair. -/
theorem lookup_mem {β : Type} (l : List (String × β)) (k : String) (v : β)
    (h : l.lookup k = some v) : (k, v) ∈ l := by
  induction l with
  | nil => simp [List.lookup] at h
  | cons a as ih =>
    obtain ⟨a1, a2⟩ := a
    by_cases hk : (k == a1) = true
    · simp only [List.lookup, hk] at h
      rw [Option.some_inj] at h
      rw [beq_iff_eq] at hk
      rw [hk, h]
      simp
    · rw [Bool.not_eq_true] at hk
      simp only [List.lookup, hk] at h
      exact List.mem_cons_of_mem _ (ih h)

/-- A key present among the pairs makes the lookup succeed. -/
theorem lookup_isSome_of_key {β : Type} (l : List (String × β)) (k : String)
    (h : ∃ x ∈ l, x.1 = k) : (l.lookup k).isSome = true := by
  induction l with
  | nil =>
    obtain ⟨x, hx, _⟩ := h
    simp at hx
  | cons a as ih =>
    obtain ⟨a1, a2⟩ := a
    by_cases hk : (k == a1) = true
    · simp [List.lookup, hk]
    · rw [Bool.not_eq_true] at hk
      simp only [List.lookup, hk]
      obtain ⟨x, hx, hxk⟩ := h
      rcases List.mem_cons.mp hx with he | hm
      · rw [he] at hxk
        simp only [beq_eq_false_iff_ne] at hk
        exact absurd hxk.symm hk
      · exact ih ⟨x, hm, hxk⟩

/-- Names are distinct when the (name, frequency) keys are distinct and the
frequencies all agree. -/
theorem nodup_names_of_nodup_keys (l : List SeriesRow) (fr : String)
    (hk : (l.map (fun r => (r.name, r.frequency))).Nodup)
    (hfr : ∀ r ∈ l, r.frequency = fr) :
    (l.map (fun r => r.name)).Nodup := by
  induction l with
  | nil => simp
  | cons a as ih =>
    rw [List.map_cons, List.nodup_cons] at hk ⊢
    refine ⟨?_, ih hk.2 (fun r hr => hfr r (by simp [hr]))⟩
    intro hcon
    obtain ⟨r, hr, hrn⟩ := List.mem_map.mp hcon
    apply hk.1
    apply List.mem_map.mpr
    refine ⟨r, hr, ?_⟩
    rw [hrn, hfr r (by simp [hr]), hfr a (by simp)]

/-- Bool containment agrees with membership. -/
theorem contains_iff_mem {α : Type} [BEq α] [LawfulBEq α] (l : List α) (a : α) :
    l.contains a = true ↔ a ∈ l :=
  List.elem_iff

/-- Membership in firstOccsFrom. -/
theorem mem_firstOccsFrom (x : String) :
    ∀ (l : List String) (seen : List String),
    x ∈ firstOccsFrom seen l ↔ x ∈ l ∧ x ∉ seen := by
  intro l
  induction l with
  | nil => intro seen; simp [firstOccsFrom]
  | cons n rest ih =>
    intro seen
    by_cases hseen : seen.contains n = true
    · rw [firstOccsFrom, if_pos hseen, ih]
      rw [contains_iff_mem] at hseen
      constructor
      · rintro ⟨hx, hns⟩
        exact ⟨by simp [hx], hns⟩
      · rintro ⟨hx, hns⟩
        rcases List.mem_cons.mp hx with he | hm
        · rw [he] at hns
          exact absurd hseen hns
        · exact ⟨hm, hns⟩
    · rw [firstOccsFrom, if_neg hseen]
      have hseen2 : n ∉ seen := by
        intro hcon
        exact hseen (contains_iff_mem seen n |>.mpr hcon)
      constructor
      · intro hx
        rcases List.mem_cons.mp hx with he | hm
        · subst he
          exact ⟨by simp, hseen2⟩
        · rw [ih] at hm
          refine ⟨by simp [hm.1], ?_⟩
          intro hcon
          exact hm.2 (by simp [hcon])
      · rintro ⟨hx, hns⟩
        rcases List.mem_cons.mp hx with he | hm
        · subst he
          simp
        · by_cases hxn : x = n
          · subst hxn
            simp
          · apply List.mem_cons_of_mem
            rw [ih]
            refine ⟨hm, ?_⟩
            intro hcon
            rcases List.mem_cons.mp hcon with h2 | h2
            · exact hxn h2
            · exact hns h2

/-- firstOccsFrom produces no duplicates. -/
theorem nodup_firstOccsFrom :
    ∀ (l : List String) (seen : List String), (firstOccsFrom seen l).Nodup := by
  intro l
  induction l with
  | nil => intro seen; simp [firstOccsFrom]
  | cons n rest ih =>
    intro seen
    by_cases hseen : seen.contains n = true
    · rw [firstOccsFrom, if_pos hseen]
      exact ih seen
    · rw [firstOccsFrom, if_neg hseen]
      rw [List.nodup_cons]
      refine ⟨?_, ih (n :: seen)⟩
      intro hcon
      rw [mem_firstOccsFrom] at hcon
      exact hcon.2 (by simp)

/-- Membership in firstOccs. -/
theorem mem_firstOccs (x : String) (l : List String) :
    x ∈ firstOccs l ↔ x ∈ l := by
  unfold firstOccs
  rw [mem_firstOccsFrom]
  simp

/-- firstOccs produces no duplicates. -/
theorem nodup_firstOccs (l : List String) : (firstOccs l).Nodup :=
  nodup_firstOccsFrom l []

/-! ## C4: the upsert batch characterized -/

theorem contains_cons_eq (a x : String) (l : List String) :
    (a :: l).contains x = ((x == a) || l.contains x) := by
  cases h : x == a <;> simp [List.contains, List.elem, h]

theorem any_of_map {α β : Type} (f : α → β) (p : β → Bool) (l : List α) :
    (l.map f).any p = l.any (fun a => p (f a)) := by
  induction l with
  | nil => rfl
  | cons a as ih => simp [ih]

/-- The rewrite the upsert batch applies to pre-existing rows: rows whose
(name, frequency) key is hit by the batch receive the new country, source
file and the aggregates for their name; other rows are untouched. -/
def updFun (c : ParquetContent) (co fr p : String) (names : List String)
    (r : SeriesRow) : SeriesRow :=
  if names.contains r.name && (r.frequency == fr) then
    { r with country := co, source_file := p,
             min_date := natMinL (seriesDates c r.name),
             max_date := natMaxL (seriesDates c r.name),
             count := (seriesDates c r.name).length }
  else r

/-- The ON CONFLICT test of one upsert: a row already carries the key. -/
def existsKey (st : Store) (fr n : String) : Bool :=
  st.series.any (fun r => r.name == n && r.frequency == fr)

theorem updFun_name (c : ParquetContent) (co fr p : String) (names : List String)
    (r : SeriesRow) : (updFun c co fr p names r).name = r.name := by
  unfold updFun
  split <;> rfl

theorem updFun_frequency (c : ParquetContent) (co fr p : String)
    (names : List String) (r : SeriesRow) :
    (updFun c co fr p names r).frequency = r.frequency := by
  unfold updFun
  split <;> rfl

theorem updFun_id (c : ParquetContent) (co fr p : String) (names : List String)
    (r : SeriesRow) : (updFun c co fr p names r).id = r.id := by
  unfold updFun
  split <;> rfl

theorem upsertAll_nil (c : ParquetContent) (co fr p : String) (st : Store) :
    upsertAll c co fr p st [] = st := rfl

theorem upsertAll_cons (c : ParquetContent) (co fr p : String) (st : Store)
    (n : String) (rest : List String) :
    upsertAll c co fr p st (n :: rest) =
      upsertAll c co fr p (upsertSeries st n co fr p
        (natMinL (seriesDates c n)) (natMaxL (seriesDates c n))
        (seriesDates c n).length) rest := rfl

/-- The fresh row appended by a non-conflicting upsert. -/
def freshRow (c : ParquetContent) (co fr p n : String) (i : Nat) : SeriesRow :=
  ⟨i, n, co, fr, p, natMinL (seriesDates c n), natMaxL (seriesDates c n),
    (seriesDates c n).length⟩

/-- The base store extended by the fresh row of a non-conflicting upsert. -/
def stWithFresh (c : ParquetContent) (co fr p n : String) (st : Store) : Store :=
  { st with
      series := st.series ++ [freshRow c co fr p n st.nextId],
      nextId := st.nextId + 1 }

/-- The base store with the single-key rewrite of a conflicting upsert. -/
def stWithUpd (c : ParquetContent) (co fr p n : String) (st : Store) : Store :=
  { st with series := st.series.map (updFun c co fr p [n]) }

/-- One conflicting upsert is exactly the single-key rewrite. -/
theorem upsertSeries_conflict (c : ParquetContent) (st : Store)
    (n co fr p : String) (hex : existsKey st fr n = true) :
    upsertSeries st n co fr p (natMinL (seriesDates c n))
      (natMaxL (seriesDates c n)) (seriesDates c n).length =
    stWithUpd c co fr p n st := by
  unfold existsKey at hex
  unfold upsertSeries stWithUpd
  rw [if_pos hex]
  congr 1
  apply List.map_eq_map_iff.mpr
  intro r _
  unfold updFun
  by_cases hc : (r.name == n && r.frequency == fr) = true
  · rw [if_pos hc]
    have hname : r.name = n := by
      rw [Bool.and_eq_true, beq_iff_eq, beq_iff_eq] at hc
      exact hc.1
    have hfreq : (r.frequency == fr) = true := by
      rw [Bool.and_eq_true] at hc
      exact hc.2
    rw [if_pos (by simp [contains_cons_eq, hname, hfreq])]
    rw [hname]
  · rw [if_neg hc]
    rw [Bool.not_eq_true] at hc
    rw [if_neg ?_]
    intro hcon
    rw [Bool.and_eq_true] at hcon
    have hn2 : (r.name == n) = true := by
      have := hcon.1
      rw [contains_cons_eq] at this
      simpa using this
    have hcon2 : (r.name == n && r.frequency == fr) = true := by
      rw [hn2, hcon.2]
      rfl
    rw [hcon2] at hc
    cases hc

/-- One non-conflicting upsert appends a fresh row. -/
theorem upsertSeries_fresh (c : ParquetContent) (st : Store)
    (n co fr p : String) (hex : existsKey st fr n = false) :
    upsertSeries st n co fr p (natMinL (seriesDates c n))
      (natMaxL (seriesDates c n)) (seriesDates c n).length =
    stWithFresh c co fr p n st := by
  unfold existsKey at hex
  unfold upsertSeries stWithFresh freshRow
  rw [if_neg (by simp [hex])]

theorem any_congr_mem {α : Type} (p q : α → Bool) (l : List α)
    (h : ∀ x ∈ l, p x = q x) : l.any p = l.any q := by
  induction l with
  | nil => rfl
  | cons a as ih =>
    rw [List.any_cons, List.any_cons, h a (by simp),
      ih (fun x hx => h x (by simp [hx]))]

/-- Applying the batch rewrite for the tail after the single-key rewrite for
the head is the batch rewrite for the whole key list. -/
theorem updFun_comp (c : ParquetContent) (co fr p : String) (n : String)
    (rest : List String) (hnr : n ∉ rest) (r : SeriesRow) :
    updFun c co fr p rest (updFun c co fr p [n] r) =
      updFun c co fr p (n :: rest) r := by
  have hcontainsr : rest.contains n = false := by
    rw [← Bool.not_eq_true]
    intro hc
    exact hnr ((contains_iff_mem rest n).mp hc)
  by_cases hname : r.name = n
  · by_cases hfreq : r.frequency = fr
    · have h1 : (([n].contains r.name) && (r.frequency == fr)) = true := by
        simp [contains_cons_eq, hname, hfreq]
      have hupd : updFun c co fr p [n] r =
          { r with country := co, source_file := p,
                   min_date := natMinL (seriesDates c r.name),
                   max_date := natMaxL (seriesDates c r.name),
                   count := (seriesDates c r.name).length } := by
        unfold updFun
        rw [if_pos h1]
      rw [hupd]
      unfold updFun
      rw [if_neg ?hA, if_pos ?hB]
      case hA =>
        intro hcon
        rw [Bool.and_eq_true] at hcon
        have h2 := hcon.1
        dsimp only at h2
        rw [hname, hcontainsr] at h2
        cases h2
      case hB =>
        simp [contains_cons_eq, hname, hfreq]
    · have h1 : updFun c co fr p [n] r = r := by
        unfold updFun
        rw [if_neg ?hC]
        case hC =>
          intro hcon
          rw [Bool.and_eq_true, beq_iff_eq] at hcon
          exact hfreq hcon.2
      rw [h1]
      unfold updFun
      rw [if_neg ?hD, if_neg ?hE]
      case hD =>
        intro hcon
        rw [Bool.and_eq_true, beq_iff_eq] at hcon
        exact hfreq hcon.2
      case hE =>
        intro hcon
        rw [Bool.and_eq_true, beq_iff_eq] at hcon
        exact hfreq hcon.2
  · have h1 : updFun c co fr p [n] r = r := by
      unfold updFun
      rw [if_neg ?hF]
      case hF =>
        intro hcon
        rw [Bool.and_eq_true] at hcon
        have h2 := hcon.1
        rw [contains_cons_eq] at h2
        simp only [Bool.or_eq_true, beq_iff_eq] at h2
        rcases h2 with h2 | h2
        · exact hname h2
        · simp at h2
    rw [h1]
    unfold updFun
    rw [contains_cons_eq]
    have hne : (r.name == n) = false := by simp [hname]
    rw [hne]
    simp

/-- A row missing the head key is rewritten the same by the tail batch and
the whole batch. -/
theorem updFun_skip (c : ParquetContent) (co fr p : String) (n : String)
    (rest : List String) (r : SeriesRow)
    (h : (r.name == n && r.frequency == fr) = false) :
    updFun c co fr p rest r = updFun c co fr p (n :: rest) r := by
  by_cases hname : r.name = n
  · have hfreq : (r.frequency == fr) = false := by
      cases hf : (r.frequency == fr)
      · rfl
      · exfalso
        have hcon : (r.name == n && r.frequency == fr) = true := by
          simp [hname, hf]
        rw [hcon] at h
        cases h
    unfold updFun
    rw [if_neg (by simp [hfreq]), if_neg (by simp [hfreq])]
  · unfold updFun
    rw [contains_cons_eq]
    have hne : (r.name == n) = false := by simp [hname]
    rw [hne]
    simp

/-- What the upsert batch does to the series table: pre-existing rows are
rewritten in place by updFun (keeping their ids), and one fresh row per key
absent from the base table is appended, with fresh ids at or above the
AUTOINCREMENT counter. -/
theorem upsertAll_spec (c : ParquetContent) (co fr p : String) :
    ∀ (names : List String) (st : Store),
    names.Nodup →
    ∃ A : List SeriesRow,
      (upsertAll c co fr p st names).series =
        st.series.map (updFun c co fr p names) ++ A ∧
      A.map (fun a => a.name) = names.filter (fun n => !(existsKey st fr n)) ∧
      (∀ a ∈ A, a.country = co ∧ a.frequency = fr ∧ a.source_file = p ∧
        a.min_date = natMinL (seriesDates c a.name) ∧
        a.max_date = natMaxL (seriesDates c a.name) ∧
        a.count = (seriesDates c a.name).length ∧
        st.nextId ≤ a.id ∧ a.id < (upsertAll c co fr p st names).nextId) ∧
      (A.map (fun a => a.id)).Nodup ∧
      st.nextId ≤ (upsertAll c co fr p st names).nextId := by
  intro names
  induction names with
  | nil =>
    intro st hnN
    refine ⟨[], ?_, rfl, by simp, by simp, le_refl _⟩
    rw [upsertAll_nil, List.append_nil]
    have hmap : st.series.map (updFun c co fr p []) = st.series.map (fun r => r) :=
      List.map_eq_map_iff.mpr (fun r _ => rfl)
    rw [hmap, List.map_id']
  | cons n rest ih =>
    intro st hnN
    rw [List.nodup_cons] at hnN
    by_cases hex : existsKey st fr n = true
    · have hstep : upsertAll c co fr p st (n :: rest) =
          upsertAll c co fr p (stWithUpd c co fr p n st) rest := by
        rw [upsertAll_cons, upsertSeries_conflict c st n co fr p hex]
      obtain ⟨A, hser, hnames, hprops, hnodA, hle⟩ :=
        ih (stWithUpd c co fr p n st) hnN.2
      refine ⟨A, ?_, ?_, ?_, hnodA, ?_⟩
      · rw [hstep, hser]
        simp only [stWithUpd]
        congr 1
        rw [List.map_map]
        apply List.map_eq_map_iff.mpr
        intro r _
        exact updFun_comp c co fr p n rest hnN.1 r
      · rw [hnames]
        rw [List.filter_cons, if_neg (by simp [hex])]
        apply List.filter_congr
        intro m _
        congr 1
        unfold existsKey
        simp only [stWithUpd]
        rw [any_of_map]
        apply any_congr_mem
        intro r _
        rw [updFun_name, updFun_frequency]
      · intro a ha
        have h2 := hprops a ha
        rw [hstep]
        exact h2
      · rw [hstep]
        exact hle
    · rw [Bool.not_eq_true] at hex
      have hstep : upsertAll c co fr p st (n :: rest) =
          upsertAll c co fr p (stWithFresh c co fr p n st) rest := by
        rw [upsertAll_cons, upsertSeries_fresh c st n co fr p hex]
      obtain ⟨A2, hser, hnames, hprops, hnodA, hle⟩ :=
        ih (stWithFresh c co fr p n st) hnN.2
      have hcontainsr : rest.contains n = false := by
        rw [← Bool.not_eq_true]
        intro hc
        exact hnN.1 ((contains_iff_mem rest n).mp hc)
      refine ⟨freshRow c co fr p n st.nextId :: A2, ?_, ?_, ?_, ?_, ?_⟩
      · rw [hstep, hser]
        simp only [stWithFresh]
        rw [List.map_append]
        have h1 : ([freshRow c co fr p n st.nextId].map (updFun c co fr p rest)) =
            [freshRow c co fr p n st.nextId] := by
          simp only [List.map_cons, List.map_nil]
          congr 1
          unfold updFun
          rw [if_neg ?hG]
          case hG =>
            intro hcon
            rw [Bool.and_eq_true] at hcon
            have h2 := hcon.1
            have h3 : (freshRow c co fr p n st.nextId).name = n := rfl
            rw [h3, hcontainsr] at h2
            cases h2
        have h2 : st.series.map (updFun c co fr p rest) =
            st.series.map (updFun c co fr p (n :: rest)) := by
          apply List.map_eq_map_iff.mpr
          intro r hr
          apply updFun_skip
          rw [← Bool.not_eq_true]
          intro hcon
          have hek : existsKey st fr n = true := by
            unfold existsKey
            rw [List.any_eq_true]
            exact ⟨r, hr, hcon⟩
          rw [hek] at hex
          cases hex
        rw [h1, h2, List.append_assoc]
        rfl
      · rw [List.filter_cons, if_pos (by simp [hex])]
        rw [List.map_cons]
        congr 1
        rw [hnames]
        apply List.filter_congr
        intro m hm
        congr 1
        unfold existsKey
        simp only [stWithFresh]
        rw [List.any_append]
        have h3 : ([freshRow c co fr p n st.nextId].any
            (fun r => r.name == m && r.frequency == fr)) = false := by
          rw [List.any_cons, List.any_nil, Bool.or_false]
          have hnm : n ≠ m := fun hcon => hnN.1 (hcon ▸ hm)
          have h4 : ((freshRow c co fr p n st.nextId).name == m) = false := by
            simp [freshRow, hnm]
          rw [h4]
          rfl
        rw [h3, Bool.or_false]
      · intro a ha
        rcases List.mem_cons.mp ha with he | hm
        · subst he
          refine ⟨rfl, rfl, rfl, rfl, rfl, rfl, le_refl _, ?_⟩
          rw [hstep]
          exact Nat.lt_of_lt_of_le (Nat.lt_succ_self _) hle
        · have h2 := hprops a hm
          refine ⟨h2.1, h2.2.1, h2.2.2.1, h2.2.2.2.1, h2.2.2.2.2.1,
            h2.2.2.2.2.2.1, ?_, ?_⟩
          · exact Nat.le_of_succ_le h2.2.2.2.2.2.2.1
          · rw [hstep]
            exact h2.2.2.2.2.2.2.2
      · rw [List.map_cons, List.nodup_cons]
        refine ⟨?_, hnodA⟩
        intro hcon
        obtain ⟨a, ha, haid⟩ := List.mem_map.mp hcon
        have h2 := (hprops a ha).2.2.2.2.2.2.1
        have h3 : a.id = st.nextId := haid
        have h4 : (stWithFresh c co fr p n st).nextId = st.nextId + 1 := rfl
        omega
      · rw [hstep]
        exact Nat.le_trans (Nat.le_succ _) hle

/-! ## C4: the successful load characterized -/

theorem updFun_touched (c : ParquetContent) (co fr p : String)
    (names : List String) (r : SeriesRow)
    (h : (names.contains r.name && (r.frequency == fr)) = true) :
    updFun c co fr p names r =
      { r with country := co, source_file := p,
               min_date := natMinL (seriesDates c r.name),
               max_date := natMaxL (seriesDates c r.name),
               count := (seriesDates c r.name).length } := by
  unfold updFun
  rw [if_pos h]

theorem updFun_untouched (c : ParquetContent) (co fr p : String)
    (names : List String) (r : SeriesRow)
    (h : (names.contains r.name && (r.frequency == fr)) = false) :
    updFun c co fr p names r = r := by
  unfold updFun
  rw [if_neg ?hH]
  case hH =>
    intro hcon
    rw [hcon] at h
    cases h

/-- The batch's group keys, in order of first appearance. -/
def loadNames (c : ParquetContent) : List String :=
  firstOccs ((longRows c).map (fun r => r.2.1))

/-- Phase 4's name-to-id dictionary, read off the upserted series table. -/
def loadN2i (st : Store) (c : ParquetContent) (co fr p : String) :
    List (String × Nat) :=
  ((upsertAll c co fr p st (loadNames c)).series.filter
    (fun r => r.source_file == p && r.frequency == fr)).map
    (fun r => (r.name, r.id))

/-- The store produced by a successful load: upserted series, data purged of
the resolved ids and extended by the new long-form rows. -/
def loadResult (st : Store) (c : ParquetContent) (co fr p : String) : Store :=
  { upsertAll c co fr p st (loadNames c) with
    data := (upsertAll c co fr p st (loadNames c)).data.filter
        (fun d => !(((loadN2i st c co fr p).map (fun q => q.2)).contains d.series_id)) ++
      (longRows c).map
        (fun r => ⟨((loadN2i st c co fr p).lookup r.2.1).getD 0, r.1, r.2.2⟩) }

/-- Every group key can be resolved in the dictionary: its upsert either
rewrote an existing row of this key to this source file or appended a fresh
one. -/
theorem loadN2i_covers (st : Store) (c : ParquetContent) (co fr p : String)
    (n : String) (hn : n ∈ loadNames c) :
    ((loadN2i st c co fr p).lookup n).isSome = true := by
  obtain ⟨A, hser, hnames, hprops, hnodA, hle⟩ :=
    upsertAll_spec c co fr p (loadNames c) st (nodup_firstOccs _)
  apply lookup_isSome_of_key
  by_cases hex : existsKey st fr n = true
  · have hex2 := hex
    unfold existsKey at hex2
    rw [List.any_eq_true] at hex2
    obtain ⟨r, hr, hkey⟩ := hex2
    rw [Bool.and_eq_true, beq_iff_eq, beq_iff_eq] at hkey
    have htouch : ((loadNames c).contains r.name && (r.frequency == fr)) = true := by
      rw [hkey.1]
      have hc1 : (loadNames c).contains n = true := (contains_iff_mem _ _).mpr hn
      rw [hc1]
      simp [hkey.2]
    refine ⟨((updFun c co fr p (loadNames c) r).name,
      (updFun c co fr p (loadNames c) r).id), ?_, by rw [updFun_name]; exact hkey.1⟩
    unfold loadN2i
    apply List.mem_map.mpr
    refine ⟨updFun c co fr p (loadNames c) r, ?_, rfl⟩
    rw [List.mem_filter]
    constructor
    · rw [hser]
      exact List.mem_append_left _ (List.mem_map.mpr ⟨r, hr, rfl⟩)
    · rw [updFun_touched c co fr p (loadNames c) r htouch]
      simp [hkey.2]
  · rw [Bool.not_eq_true] at hex
    have hmemA : n ∈ A.map (fun a => a.name) := by
      rw [hnames]
      exact List.mem_filter.mpr ⟨hn, by simp [hex]⟩
    obtain ⟨a, ha, han⟩ := List.mem_map.mp hmemA
    have hp := hprops a ha
    refine ⟨(a.name, a.id), ?_, han⟩
    unfold loadN2i
    apply List.mem_map.mpr
    refine ⟨a, ?_, rfl⟩
    rw [List.mem_filter]
    constructor
    · rw [hser]
      exact List.mem_append_right _ ha
    · simp [hp.2.2.1, hp.2.1]

/-- A successful resolution names an actual series row of the upserted
table, attributed to this file and frequency. -/
theorem loadN2i_sound (st : Store) (c : ParquetContent) (co fr p : String)
    (n : String) (i : Nat) (h : (loadN2i st c co fr p).lookup n = some i) :
    ∃ row ∈ (upsertAll c co fr p st (loadNames c)).series,
      row.id = i ∧ row.name = n ∧ row.frequency = fr ∧ row.source_file = p := by
  have hmem := lookup_mem _ _ _ h
  unfold loadN2i at hmem
  obtain ⟨row, hrow, heq⟩ := List.mem_map.mp hmem
  rw [List.mem_filter] at hrow
  rw [Bool.and_eq_true, beq_iff_eq, beq_iff_eq] at hrow
  have h1 : row.name = n := congrArg Prod.fst heq
  have h2 : row.id = i := congrArg Prod.snd heq
  exact ⟨row, hrow.1, h2, h1, hrow.2.2, hrow.2.1⟩

/-- Under its three nonemptiness guards the loader takes the success path
and returns exactly the characterized store and the group-key count. -/
theorem load_success_eq (st : Store) (c : ParquetContent) (co fr p : String)
    (h1 : c.hasDate = true) (h2 : c.cols.isEmpty = false)
    (h3 : (longRows c).isEmpty = false) :
    load_parquet_file st (some c) co fr p =
      (loadResult st c co fr p, (loadNames c).length) := by
  have hall : ((longRows c).all
      (fun r => ((loadN2i st c co fr p).lookup r.2.1).isSome)) = true := by
    rw [List.all_eq_true]
    intro r hr
    apply loadN2i_covers
    unfold loadNames
    rw [mem_firstOccs]
    exact List.mem_map.mpr ⟨r, hr, rfl⟩
  simp only [load_parquet_file, h1, h2, h3, Bool.not_true]
  rw [if_neg (by simp)]
  have hall2 := hall
  unfold loadN2i loadNames at hall2
  rw [hall2]
  rw [if_pos rfl]
  rfl

/-! ## C4: the committed teardown characterized -/

/-- A duplicate-free mapped list makes the map injective on members. -/
theorem map_nodup_inj {α β : Type} (f : α → β) (l : List α)
    (h : (l.map f).Nodup) :
    ∀ a ∈ l, ∀ b ∈ l, f a = f b → a = b := by
  induction l with
  | nil => intro a ha; simp at ha
  | cons x xs ih =>
    rw [List.map_cons, List.nodup_cons] at h
    intro a ha b hb hf
    rcases List.mem_cons.mp ha with hea | hma
    · rcases List.mem_cons.mp hb with heb | hmb
      · rw [hea, heb]
      · exfalso
        apply h.1
        rw [hea] at hf
        rw [hf]
        exact List.mem_map.mpr ⟨b, hmb, rfl⟩
    · rcases List.mem_cons.mp hb with heb | hmb
      · exfalso
        apply h.1
        rw [heb] at hf
        rw [← hf]
        exact List.mem_map.mpr ⟨a, hma, rfl⟩
      · exact ih h.2 a hma b hmb hf

/-- Store equality from field equality. -/
theorem store_eq_of_fields (a b : Store) (h1 : a.series = b.series)
    (h2 : a.data = b.data) (h3 : a.processed = b.processed)
    (h4 : a.nextId = b.nextId) : a = b := by
  cases a
  cases b
  simp_all

/-- Under distinct series ids, the teardown's id-based delete of series rows
is exactly a filter on the source file. -/
theorem remove_series_eq (st : Store) (p : String)
    (hids : (st.series.map (fun r => r.id)).Nodup) :
    (remove_file_data st p).1.series =
      st.series.filter (fun r => !(r.source_file == p)) := by
  show st.series.filter _ = _
  apply List.filter_congr
  intro r hr
  congr 1
  cases hsf : (r.source_file == p) with
  | true =>
    apply (contains_iff_mem _ _).mpr
    exact List.mem_map.mpr ⟨r, List.mem_filter.mpr ⟨hr, hsf⟩, rfl⟩
  | false =>
    rw [← Bool.not_eq_true]
    intro hcon
    obtain ⟨r2, hr2, hid⟩ := List.mem_map.mp ((contains_iff_mem _ _).mp hcon)
    rw [List.mem_filter] at hr2
    have : r2 = r := map_nodup_inj (fun r => r.id) st.series hids r2 hr2.1 r hr hid
    rw [this] at hr2
    rw [hr2.2] at hsf
    cases hsf

/-- Tearing a file down twice is the same as once. -/
theorem remove_idem (st : Store) (p : String) :
    (remove_file_data (remove_file_data st p).1 p).1 = (remove_file_data st p).1 := by
  have hnos := remove_establishes_series st p
  have hfe : (remove_file_data st p).1.series.filter (fun r => r.source_file == p) = [] :=
    List.filter_eq_nil_iff.mpr (fun r hr => by simp [hnos r hr])
  apply store_eq_of_fields
  · show (remove_file_data st p).1.series.filter _ = _
    rw [hfe]
    exact List.filter_eq_self.mpr (fun r _ => rfl)
  · show (remove_file_data st p).1.data.filter _ = _
    rw [hfe]
    exact List.filter_eq_self.mpr (fun d _ => rfl)
  · show (remove_file_data st p).1.processed.filter _ = _
    show (st.processed.filter (fun q => !(q.filepath == p))).filter
        (fun q => !(q.filepath == p)) = _
    exact filter_filter_of_imp _ _ _ (fun q _ h => h)
  · rfl

/-- The teardown preserves the schema invariants. -/
theorem storeInv_remove (st : Store) (p : String) (h : StoreInv st) :
    StoreInv (remove_file_data st p).1 := by
  obtain ⟨hids, hkeys, hbound, hrefs⟩ := h
  refine ⟨?_, ?_, ?_, ?_⟩
  · exact hids.sublist ((List.filter_sublist _).map _)
  · exact hkeys.sublist ((List.filter_sublist _).map _)
  · intro r hr
    have hr2 : r ∈ st.series := List.mem_of_mem_filter hr
    exact hbound r hr2
  · intro d hd
    have hd2 : d ∈ st.data := List.mem_of_mem_filter hd
    obtain ⟨r, hr, hrid⟩ := hrefs d hd2
    refine ⟨r, List.mem_filter.mpr ⟨hr, ?_⟩, hrid⟩
    rw [hrid]
    exact (List.mem_filter.mp hd).2

/-! ## C4: the spec-level shape of one changed-file reprocessing step -/

/-- The spec-level SeriesRecord produced for group key `n` of this file. -/
def keyTuple (c : ParquetContent) (co fr p : String) (n : String) :
    String × String × String × String × Nat × Nat × Nat :=
  (n, co, fr, p, natMinL (seriesDates c n), natMaxL (seriesDates c n),
    (seriesDates c n).length)

/-- The series rows of a store untouched by reprocessing this file: not
attributed to it and not hit by any of its group keys. -/
def survSeries (c : ParquetContent) (fr p : String) (st : Store) : List SeriesRow :=
  st.series.filter (fun r => !(r.source_file == p) &&
    !((loadNames c).contains r.name && (r.frequency == fr)))

/-- The data rows owned by surviving series rows. -/
def survData (c : ParquetContent) (fr p : String) (st : Store) : List DataRow :=
  st.data.filter (fun d =>
    (survSeries c fr p st).any (fun r => r.id == d.series_id))

/-- The id join of a data list against a series list, at the spec level. -/
def dataJoin (rows : List SeriesRow) (data : List DataRow) :
    List (String × String × Nat × Int) :=
  data.flatMap (fun d => (rows.filter (fun r => r.id == d.series_id)).map
    (fun r => (r.name, r.frequency, d.date, d.value)))

theorem dataView_eq_dataJoin (st : Store) :
    dataView st = dataJoin st.series st.data := rfl

theorem dataView_eq_of_fields (a b : Store) (h1 : a.series = b.series)
    (h2 : a.data = b.data) : dataView a = dataView b := by
  simp only [dataView, h1, h2]

/-- A file with non-null cells has at least one group key. -/
theorem loadNames_ne_nil (c : ParquetContent)
    (h3 : (longRows c).isEmpty = false) : loadNames c ≠ [] := by
  intro hcon
  cases hl : longRows c with
  | nil => rw [hl] at h3; cases h3
  | cons r rest =>
    have hmem : r.2.1 ∈ loadNames c := by
      unfold loadNames
      rw [mem_firstOccs]
      exact List.mem_map.mpr ⟨r, by rw [hl]; simp, rfl⟩
    rw [hcon] at hmem
    simp at hmem

/-- A successful load makes the orchestrator record the ledger entry; the
whole step is the teardown, the characterized load, and the record. -/
theorem process_success_eq (st : Store) (c : ParquetContent)
    (p co fr : String) (m now : Nat)
    (h1 : c.hasDate = true) (h2 : c.cols.isEmpty = false)
    (h3 : (longRows c).isEmpty = false) :
    process_changed_file st ⟨p, co, fr, m, some c⟩ now =
      record_processed (loadResult (remove_file_data st p).1 c co fr p)
        p co fr m (loadNames c).length now := by
  unfold process_changed_file
  dsimp only
  rw [load_success_eq _ c co fr p h1 h2 h3]
  rw [if_pos ?hpos]
  case hpos =>
    show 0 < (loadNames c).length
    exact List.length_pos.mpr (loadNames_ne_nil c h3)

/-- A zero-series load makes the step exactly the committed teardown. -/
theorem process_zero_eq (st : Store) (c : ParquetContent)
    (p co fr : String) (m now : Nat)
    (hz : c.hasDate = false ∨ c.cols.isEmpty = true ∨
      (longRows c).isEmpty = true) :
    process_changed_file st ⟨p, co, fr, m, some c⟩ now =
      (remove_file_data st p).1 := by
  unfold process_changed_file
  dsimp only
  have hload : load_parquet_file (remove_file_data st p).1 (some c) co fr p =
      ((remove_file_data st p).1, 0) := by
    rcases hz with h | h | h
    · simp [load_parquet_file, h]
    · simp [load_parquet_file, h]
    · simp [load_parquet_file, h]
  rw [hload]
  simp

/-- The upserted table keeps distinct series ids. -/
theorem upsertAll_ids_nodup (c : ParquetContent) (co fr p : String)
    (names : List String) (st : Store) (hnN : names.Nodup)
    (hids : (st.series.map (fun r => r.id)).Nodup)
    (hbound : ∀ r ∈ st.series, r.id < st.nextId) :
    ((upsertAll c co fr p st names).series.map (fun r => r.id)).Nodup := by
  obtain ⟨A, hser, hnames, hprops, hnodA, hle⟩ := upsertAll_spec c co fr p names st hnN
  rw [hser, List.map_append, List.map_map]
  have hmm : st.series.map (fun r => (updFun c co fr p names r).id) =
      st.series.map (fun r => r.id) :=
    List.map_eq_map_iff.mpr (fun r _ => updFun_id c co fr p names r)
  rw [show ((fun r : SeriesRow => r.id) ∘ updFun c co fr p names) =
      (fun r => (updFun c co fr p names r).id) from rfl, hmm]
  apply hids.append hnodA
  intro i hi hi2
  obtain ⟨r, hr, hrid⟩ := List.mem_map.mp hi
  obtain ⟨a, ha, haid⟩ := List.mem_map.mp hi2
  have h1 := hbound r hr
  have h2 := (hprops a ha).2.2.2.2.2.2.1
  omega

/-- The upserted table keeps the UNIQUE(name, frequency) constraint. -/
theorem upsertAll_keys_nodup (c : ParquetContent) (co fr p : String)
    (names : List String) (st : Store) (hnN : names.Nodup)
    (hkeys : (st.series.map (fun r => (r.name, r.frequency))).Nodup) :
    ((upsertAll c co fr p st names).series.map
      (fun r => (r.name, r.frequency))).Nodup := by
  obtain ⟨A, hser, hnames, hprops, hnodA, hle⟩ := upsertAll_spec c co fr p names st hnN
  rw [hser, List.map_append, List.map_map]
  have hmm : st.series.map (fun r =>
      ((updFun c co fr p names r).name, (updFun c co fr p names r).frequency)) =
      st.series.map (fun r => (r.name, r.frequency)) :=
    List.map_eq_map_iff.mpr (fun r _ => by
      rw [updFun_name, updFun_frequency])
  rw [show ((fun r : SeriesRow => (r.name, r.frequency)) ∘ updFun c co fr p names) =
      (fun r => ((updFun c co fr p names r).name,
        (updFun c co fr p names r).frequency)) from rfl, hmm]
  have hAkeys : A.map (fun a => (a.name, a.frequency)) =
      (A.map (fun a => a.name)).map (fun n => (n, fr)) := by
    rw [List.map_map]
    exact List.map_eq_map_iff.mpr (fun a ha => by
      rw [show ((fun n : String => (n, fr)) ∘ fun a : SeriesRow => a.name) =
        (fun a : SeriesRow => (a.name, fr)) from rfl]
      rw [(hprops a ha).2.1])
  apply hkeys.append
  · rw [hAkeys]
    apply List.Nodup.map
    · intro x y hxy
      exact congrArg Prod.fst hxy
    · rw [hnames]
      exact hnN.filter _
  · intro k hk hk2
    obtain ⟨r, hr, hrk⟩ := List.mem_map.mp hk
    rw [hAkeys] at hk2
    obtain ⟨n, hn, hnk⟩ := List.mem_map.mp hk2
    rw [hnames] at hn
    rw [List.mem_filter] at hn
    have hkn : r.name = n ∧ r.frequency = fr := by
      have hcomp : (r.name, r.frequency) = (n, fr) := hrk.trans hnk.symm
      exact ⟨congrArg Prod.fst hcomp, congrArg Prod.snd hcomp⟩
    have hek : existsKey st fr n = true := by
      unfold existsKey
      rw [List.any_eq_true]
      exact ⟨r, hr, by simp [hkn.1, hkn.2]⟩
    rw [hek] at hn
    simp at hn

theorem record_nextId (st : Store) (fp co fr : String) (m k now : Nat) :
    (record_processed st fp co fr m k now).nextId = st.nextId := by
  unfold record_processed
  split <;> rfl

theorem loadResult_series (st : Store) (c : ParquetContent) (co fr p : String) :
    (loadResult st c co fr p).series =
      (upsertAll c co fr p st (loadNames c)).series := rfl

theorem loadResult_nextId (st : Store) (c : ParquetContent) (co fr p : String) :
    (loadResult st c co fr p).nextId =
      (upsertAll c co fr p st (loadNames c)).nextId := rfl

theorem loadResult_data (st : Store) (c : ParquetContent) (co fr p : String) :
    (loadResult st c co fr p).data =
      (upsertAll c co fr p st (loadNames c)).data.filter
        (fun d => !(((loadN2i st c co fr p).map (fun q => q.2)).contains d.series_id)) ++
      (longRows c).map
        (fun r => ⟨((loadN2i st c co fr p).lookup r.2.1).getD 0, r.1, r.2.2⟩) := rfl

/-- The survival predicate is invariant under the batch rewrite: touched
rows become attributed to this file (so they fail it either way), untouched
rows are unchanged. -/
theorem survPred_updFun (c : ParquetContent) (co fr p : String) (r : SeriesRow) :
    (!((updFun c co fr p (loadNames c) r).source_file == p) &&
      !((loadNames c).contains (updFun c co fr p (loadNames c) r).name &&
        ((updFun c co fr p (loadNames c) r).frequency == fr))) =
    (!(r.source_file == p) &&
      !((loadNames c).contains r.name && (r.frequency == fr))) := by
  by_cases htch : ((loadNames c).contains r.name && (r.frequency == fr)) = true
  · have hc := htch
    rw [Bool.and_eq_true] at hc
    rw [updFun_touched c co fr p (loadNames c) r htch]
    simp [htch]
    exact fun _ => ⟨(contains_iff_mem _ _).mp hc.1, beq_iff_eq.mp hc.2⟩
  · rw [Bool.not_eq_true] at htch
    rw [updFun_untouched c co fr p (loadNames c) r htch]

/-- Reprocessing a file leaves the surviving series rows exactly as they
were (T2: stability of the untouched part). -/
theorem survSeries_step (st : Store) (c : ParquetContent) (p co fr : String)
    (m now : Nat) (hInv : StoreInv st)
    (h1 : c.hasDate = true) (h2 : c.cols.isEmpty = false)
    (h3 : (longRows c).isEmpty = false) :
    survSeries c fr p (process_changed_file st ⟨p, co, fr, m, some c⟩ now) =
      survSeries c fr p st := by
  rw [process_success_eq st c p co fr m now h1 h2 h3]
  obtain ⟨A, hser, hnames, hprops, hnodA, hle⟩ :=
    upsertAll_spec c co fr p (loadNames c) (remove_file_data st p).1
      (nodup_firstOccs _)
  unfold survSeries
  rw [record_series]
  show (upsertAll c co fr p (remove_file_data st p).1 (loadNames c)).series.filter _ = _
  rw [hser, List.filter_append]
  have hA : A.filter (fun r => !(r.source_file == p) &&
      !((loadNames c).contains r.name && (r.frequency == fr))) = [] := by
    rw [List.filter_eq_nil_iff]
    intro a ha
    have hp2 := (hprops a ha).2.2.1
    simp [hp2]
  rw [hA, List.append_nil]
  rw [filter_of_map]
  have hcongr1 : (remove_file_data st p).1.series.filter (fun r =>
      !((updFun c co fr p (loadNames c) r).source_file == p) &&
        !((loadNames c).contains (updFun c co fr p (loadNames c) r).name &&
          ((updFun c co fr p (loadNames c) r).frequency == fr))) =
      (remove_file_data st p).1.series.filter (fun r => !(r.source_file == p) &&
        !((loadNames c).contains r.name && (r.frequency == fr))) :=
    List.filter_congr (fun r _ => survPred_updFun c co fr p r)
  rw [hcongr1]
  have hid : ((remove_file_data st p).1.series.filter (fun r => !(r.source_file == p) &&
      !((loadNames c).contains r.name && (r.frequency == fr)))).map
        (updFun c co fr p (loadNames c)) =
      (remove_file_data st p).1.series.filter (fun r => !(r.source_file == p) &&
        !((loadNames c).contains r.name && (r.frequency == fr))) := by
    have h4 : ∀ r ∈ (remove_file_data st p).1.series.filter (fun r =>
        !(r.source_file == p) &&
          !((loadNames c).contains r.name && (r.frequency == fr))),
        updFun c co fr p (loadNames c) r = r := by
      intro r hr
      rw [List.mem_filter, Bool.and_eq_true] at hr
      apply updFun_untouched
      have := hr.2.2
      cases htch : ((loadNames c).contains r.name && (r.frequency == fr)) with
      | false => rfl
      | true => rw [htch] at this; cases this
    calc ((remove_file_data st p).1.series.filter _).map (updFun c co fr p (loadNames c))
        = ((remove_file_data st p).1.series.filter _).map (fun r => r) :=
          List.map_eq_map_iff.mpr h4
      _ = _ := List.map_id' _
  rw [hid]
  rw [remove_series_eq st p hInv.1]
  rw [filter_and]
  apply List.filter_congr
  intro r _
  cases hsrc : (r.source_file == p) <;>
    cases htch : ((loadNames c).contains r.name && (r.frequency == fr)) <;>
      simp [hsrc, htch]

/-- Reprocessing preserves the schema invariants (T5). -/
theorem storeInv_step (st : Store) (c : ParquetContent) (p co fr : String)
    (m now : Nat) (hInv : StoreInv st)
    (h1 : c.hasDate = true) (h2 : c.cols.isEmpty = false)
    (h3 : (longRows c).isEmpty = false) :
    StoreInv (process_changed_file st ⟨p, co, fr, m, some c⟩ now) := by
  rw [process_success_eq st c p co fr m now h1 h2 h3]
  obtain ⟨hRids, hRkeys, hRbound, hRrefs⟩ := storeInv_remove st p hInv
  obtain ⟨A, hser, hnames, hprops, hnodA, hle⟩ :=
    upsertAll_spec c co fr p (loadNames c) (remove_file_data st p).1
      (nodup_firstOccs _)
  refine ⟨?_, ?_, ?_, ?_⟩
  · simp only [record_series]
    exact upsertAll_ids_nodup c co fr p (loadNames c) _ (nodup_firstOccs _)
      hRids hRbound
  · simp only [record_series]
    exact upsertAll_keys_nodup c co fr p (loadNames c) _ (nodup_firstOccs _) hRkeys
  · intro r hr
    rw [record_series, loadResult_series] at hr
    rw [record_nextId, loadResult_nextId]
    rw [hser] at hr
    rcases List.mem_append.mp hr with hm | hm
    · obtain ⟨r0, hr0, hr0e⟩ := List.mem_map.mp hm
      have hb := hRbound r0 hr0
      rw [← hr0e, updFun_id]
      omega
    · exact (hprops r hm).2.2.2.2.2.2.2
  · intro d hd
    simp only [record_series, loadResult_series]
    rw [record_data, loadResult_data] at hd
    rcases List.mem_append.mp hd with hm | hm
    · have hd2 : d ∈ (remove_file_data st p).1.data := by
        have := List.mem_of_mem_filter hm
        rw [upsertAll_data] at this
        exact this
      obtain ⟨r, hr, hrid⟩ := hRrefs d hd2
      refine ⟨updFun c co fr p (loadNames c) r, ?_, ?_⟩
      · rw [hser]
        exact List.mem_append_left _ (List.mem_map.mpr ⟨r, hr, rfl⟩)
      · rw [updFun_id]
        exact hrid
    · obtain ⟨lrow, hlrow, heq⟩ := List.mem_map.mp hm
      have hnmem : lrow.2.1 ∈ loadNames c := by
        unfold loadNames
        rw [mem_firstOccs]
        exact List.mem_map.mpr ⟨lrow, hlrow, rfl⟩
      have hsome := loadN2i_covers (remove_file_data st p).1 c co fr p lrow.2.1 hnmem
      obtain ⟨i, hi⟩ := Option.isSome_iff_exists.mp hsome
      obtain ⟨row, hrow, hrowid, _, _, _⟩ :=
        loadN2i_sound (remove_file_data st p).1 c co fr p lrow.2.1 i hi
      refine ⟨row, hrow, ?_⟩
      rw [hrowid, ← heq]
      show i = ((loadN2i (remove_file_data st p).1 c co fr p).lookup lrow.2.1).getD 0
      rw [hi]
      rfl

theorem remove_nextId (st : Store) (p : String) :
    (remove_file_data st p).1.nextId = st.nextId := rfl

theorem remove_data_def (st : Store) (p : String) :
    (remove_file_data st p).1.data = st.data.filter (fun d =>
      !(((st.series.filter (fun r => r.source_file == p)).map
          (fun r => r.id)).contains d.series_id)) := rfl

/-- Membership in the resolved-id set of the load dictionary. -/
theorem n2iIds_mem (st : Store) (c : ParquetContent) (co fr p : String) (i : Nat) :
    ((loadN2i st c co fr p).map (fun q => q.2)).contains i = true ↔
      ∃ row ∈ (upsertAll c co fr p st (loadNames c)).series,
        (row.source_file == p && (row.frequency == fr)) = true ∧ row.id = i := by
  rw [contains_iff_mem]
  unfold loadN2i
  rw [List.map_map]
  constructor
  · intro h
    obtain ⟨row, hrow, heq⟩ := List.mem_map.mp h
    rw [List.mem_filter] at hrow
    exact ⟨row, hrow.1, hrow.2, heq⟩
  · rintro ⟨row, hrow, hpf, hid⟩
    exact List.mem_map.mpr ⟨row, List.mem_filter.mpr ⟨hrow, hpf⟩, hid⟩

/-- The data rows kept by a successful reload are exactly the rows owned by
series rows that survive the reprocessing of this file. -/
theorem kept_eq_survData (st : Store) (c : ParquetContent) (p co fr : String)
    (hInv : StoreInv st) :
    (remove_file_data st p).1.data.filter (fun d =>
      !(((loadN2i (remove_file_data st p).1 c co fr p).map
          (fun q => q.2)).contains d.series_id)) =
    survData c fr p st := by
  obtain ⟨hids, hkeys, hbound, hrefs⟩ := hInv
  obtain ⟨A, hser, hnames, hprops, hnodA, hle⟩ :=
    upsertAll_spec c co fr p (loadNames c) (remove_file_data st p).1
      (nodup_firstOccs _)
  rw [remove_data_def, filter_and]
  unfold survData
  apply List.filter_congr
  intro d hd
  obtain ⟨r, hr, hrid⟩ := hrefs d hd
  have huniq : ∀ s ∈ st.series, s.id = r.id → s = r :=
    fun s hs h => map_nodup_inj (fun x => x.id) st.series hids s hs r hr h
  by_cases hsrc : (r.source_file == p) = true
  · have hq1 : ((st.series.filter (fun r0 => r0.source_file == p)).map
        (fun r0 => r0.id)).contains d.series_id = true := by
      rw [contains_iff_mem, ← hrid]
      exact List.mem_map.mpr ⟨r, List.mem_filter.mpr ⟨hr, hsrc⟩, rfl⟩
    have hR : (survSeries c fr p st).any (fun s => s.id == d.series_id) = false := by
      cases hA : (survSeries c fr p st).any (fun s => s.id == d.series_id) with
      | false => rfl
      | true =>
        exfalso
        obtain ⟨s, hs, hsb⟩ := List.any_eq_true.mp hA
        unfold survSeries at hs
        rw [List.mem_filter, Bool.and_eq_true] at hs
        have hse : s = r := huniq s hs.1 (by rw [beq_iff_eq] at hsb; omega)
        have h2 := hs.2.1
        rw [hse, hsrc] at h2
        exact Bool.false_ne_true h2
    rw [hq1, hR]
    rfl
  · rw [Bool.not_eq_true] at hsrc
    have hq1 : ((st.series.filter (fun r0 => r0.source_file == p)).map
        (fun r0 => r0.id)).contains d.series_id = false := by
      cases hc : ((st.series.filter (fun r0 => r0.source_file == p)).map
          (fun r0 => r0.id)).contains d.series_id with
      | false => rfl
      | true =>
        exfalso
        rw [contains_iff_mem] at hc
        obtain ⟨s, hsmem, hsid⟩ := List.mem_map.mp hc
        rw [List.mem_filter] at hsmem
        have hse : s = r := huniq s hsmem.1 (by omega)
        have h2 := hsmem.2
        rw [hse, hsrc] at h2
        exact Bool.false_ne_true h2
    have hrR : r ∈ (remove_file_data st p).1.series := by
      rw [remove_series_eq st p hids]
      exact List.mem_filter.mpr ⟨hr, by rw [hsrc]; rfl⟩
    by_cases htch : ((loadNames c).contains r.name && (r.frequency == fr)) = true
    · have hc2 := htch
      rw [Bool.and_eq_true] at hc2
      have hq2 : ((loadN2i (remove_file_data st p).1 c co fr p).map
          (fun q => q.2)).contains d.series_id = true := by
        rw [n2iIds_mem]
        refine ⟨updFun c co fr p (loadNames c) r, ?_, ?_, ?_⟩
        · rw [hser]
          exact List.mem_append_left _ (List.mem_map.mpr ⟨r, hrR, rfl⟩)
        · rw [updFun_touched c co fr p (loadNames c) r htch]
          simp [hc2.2]
        · rw [updFun_id]
          exact hrid
      have hR2 : (survSeries c fr p st).any (fun s => s.id == d.series_id) = false := by
        cases hA : (survSeries c fr p st).any (fun s => s.id == d.series_id) with
        | false => rfl
        | true =>
          exfalso
          obtain ⟨s, hs, hsb⟩ := List.any_eq_true.mp hA
          unfold survSeries at hs
          rw [List.mem_filter, Bool.and_eq_true] at hs
          have hse : s = r := huniq s hs.1 (by rw [beq_iff_eq] at hsb; omega)
          have h2 := hs.2.2
          rw [hse, htch] at h2
          exact Bool.false_ne_true h2
      rw [hq1, hq2, hR2]
      rfl
    · rw [Bool.not_eq_true] at htch
      have hq2 : ((loadN2i (remove_file_data st p).1 c co fr p).map
          (fun q => q.2)).contains d.series_id = false := by
        cases hc : ((loadN2i (remove_file_data st p).1 c co fr p).map
            (fun q => q.2)).contains d.series_id with
        | false => rfl
        | true =>
          exfalso
          rw [n2iIds_mem] at hc
          obtain ⟨row, hrow, hpf, hid⟩ := hc
          rw [hser] at hrow
          rcases List.mem_append.mp hrow with hm | hm
          · obtain ⟨r2, hr2, hr2e⟩ := List.mem_map.mp hm
            have hr2st : r2 ∈ st.series := by
              rw [remove_series_eq st p hids] at hr2
              exact List.mem_of_mem_filter hr2
            have hr2id : r2.id = d.series_id := by
              rw [← hid, ← hr2e, updFun_id]
            have hse : r2 = r := huniq r2 hr2st (by omega)
            by_cases ht2 : ((loadNames c).contains r2.name && (r2.frequency == fr)) = true
            · rw [hse, htch] at ht2
              exact Bool.false_ne_true ht2
            · rw [Bool.not_eq_true] at ht2
              rw [← hr2e, updFun_untouched c co fr p (loadNames c) r2 ht2] at hpf
              rw [Bool.and_eq_true] at hpf
              have h2 := hpf.1
              rw [hse, hsrc] at h2
              exact Bool.false_ne_true h2
          · have hge := (hprops row hm).2.2.2.2.2.2.1
            have hlt := hbound r hr
            rw [remove_nextId] at hge
            omega
      have hRany : (survSeries c fr p st).any (fun s => s.id == d.series_id) = true := by
        apply List.any_eq_true.mpr
        refine ⟨r, ?_, ?_⟩
        · unfold survSeries
          exact List.mem_filter.mpr ⟨hr, by rw [hsrc, htch]; rfl⟩
        · rw [beq_iff_eq]
          exact hrid
      rw [hq1, hq2, hRany]
      rfl

theorem dataJoin_append (rows : List SeriesRow) (l1 l2 : List DataRow) :
    dataJoin rows (l1 ++ l2) = dataJoin rows l1 ++ dataJoin rows l2 :=
  List.flatMap_append l1 l2 _

/-- A freshly ingested data row is never owned by a surviving series row. -/
theorem new_row_not_surv (st : Store) (c : ParquetContent) (p co fr : String)
    (hInv : StoreInv st) (i : Nat)
    (hres : ∃ row ∈ (upsertAll c co fr p (remove_file_data st p).1
        (loadNames c)).series,
      row.id = i ∧ row.frequency = fr ∧ row.source_file = p) :
    (survSeries c fr p st).any (fun s => s.id == i) = false := by
  obtain ⟨hids, hkeys, hbound, hrefs⟩ := hInv
  obtain ⟨A, hser, hnames, hprops, hnodA, hle⟩ :=
    upsertAll_spec c co fr p (loadNames c) (remove_file_data st p).1
      (nodup_firstOccs _)
  obtain ⟨row, hrow, hrid, hrfr, hrsf⟩ := hres
  cases hA : (survSeries c fr p st).any (fun s => s.id == i) with
  | false => rfl
  | true =>
    exfalso
    obtain ⟨s, hs, hsb⟩ := List.any_eq_true.mp hA
    unfold survSeries at hs
    rw [List.mem_filter, Bool.and_eq_true] at hs
    rw [beq_iff_eq] at hsb
    rw [hser] at hrow
    rcases List.mem_append.mp hrow with hm | hm
    · obtain ⟨r2, hr2, hr2e⟩ := List.mem_map.mp hm
      have hr2st : r2 ∈ st.series := by
        rw [remove_series_eq st p hids] at hr2
        exact List.mem_of_mem_filter hr2
      have hr2id : r2.id = s.id := by
        rw [← hr2e, updFun_id] at hrid
        omega
      have hse : r2 = s :=
        map_nodup_inj (fun x => x.id) st.series hids r2 hr2st s hs.1 hr2id
      by_cases ht2 : ((loadNames c).contains r2.name && (r2.frequency == fr)) = true
      · have h2 := hs.2.2
        rw [← hse, ht2] at h2
        exact Bool.false_ne_true h2
      · rw [Bool.not_eq_true] at ht2
        rw [← hr2e, updFun_untouched c co fr p (loadNames c) r2 ht2] at hrsf
        have h2 := hs.2.1
        rw [← hse, hrsf] at h2
        simp at h2
    · have hge := (hprops row hm).2.2.2.2.2.2.1
      have hlt := hbound s hs.1
      rw [remove_nextId] at hge
      omega

/-- Reprocessing a file leaves the surviving data rows exactly as they were
(T3: data-side stability). -/
theorem survData_step (st : Store) (c : ParquetContent) (p co fr : String)
    (m now : Nat) (hInv : StoreInv st)
    (h1 : c.hasDate = true) (h2 : c.cols.isEmpty = false)
    (h3 : (longRows c).isEmpty = false) :
    survData c fr p (process_changed_file st ⟨p, co, fr, m, some c⟩ now) =
      survData c fr p st := by
  have hS := survSeries_step st c p co fr m now hInv h1 h2 h3
  unfold survData
  simp only [hS]
  rw [process_success_eq st c p co fr m now h1 h2 h3]
  rw [record_data, loadResult_data, upsertAll_data]
  rw [List.filter_append]
  have hnew : ((longRows c).map (fun r =>
      (⟨((loadN2i (remove_file_data st p).1 c co fr p).lookup r.2.1).getD 0,
        r.1, r.2.2⟩ : DataRow))).filter (fun d =>
      (survSeries c fr p st).any (fun r => r.id == d.series_id)) = [] := by
    rw [List.filter_eq_nil_iff]
    intro nd hnd
    obtain ⟨lrow, hlrow, heq⟩ := List.mem_map.mp hnd
    have hnmem : lrow.2.1 ∈ loadNames c := by
      unfold loadNames
      rw [mem_firstOccs]
      exact List.mem_map.mpr ⟨lrow, hlrow, rfl⟩
    obtain ⟨i, hi⟩ := Option.isSome_iff_exists.mp
      (loadN2i_covers (remove_file_data st p).1 c co fr p lrow.2.1 hnmem)
    obtain ⟨row, hrow, hrowid, _, hrowfr, hrowsf⟩ :=
      loadN2i_sound (remove_file_data st p).1 c co fr p lrow.2.1 i hi
    have hsid : nd.series_id = i := by
      rw [← heq, hi]
      rfl
    have hfalse := new_row_not_surv st c p co fr
      ⟨(hInv.1 : _), hInv.2.1, hInv.2.2.1, hInv.2.2.2⟩ i
      ⟨row, hrow, hrowid, hrowfr, hrowsf⟩
    rw [hsid, hfalse]
    exact Bool.false_ne_true
  rw [hnew, List.append_nil]
  rw [kept_eq_survData st c p co fr hInv]
  show ((st.data.filter _).filter _) = st.data.filter _
  exact filter_filter_of_imp _ _ _ (fun a _ h => h)

/-- The data view after reprocessing a file is the join of the surviving
rows plus one row per long-form record of the file (T4). -/
theorem dataView_step (st : Store) (c : ParquetContent) (p co fr : String)
    (m now : Nat) (hInv : StoreInv st)
    (h1 : c.hasDate = true) (h2 : c.cols.isEmpty = false)
    (h3 : (longRows c).isEmpty = false) :
    dataView (process_changed_file st ⟨p, co, fr, m, some c⟩ now) =
      dataJoin (survSeries c fr p st) (survData c fr p st) ++
        (longRows c).map (fun r => (r.2.1, fr, r.1, r.2.2)) := by
  have hRinv := storeInv_remove st p hInv
  obtain ⟨hRids, hRkeys, hRbound, hRrefs⟩ := hRinv
  obtain ⟨A, hser, hnames, hprops, hnodA, hle⟩ :=
    upsertAll_spec c co fr p (loadNames c) (remove_file_data st p).1
      (nodup_firstOccs _)
  have hFids : ((upsertAll c co fr p (remove_file_data st p).1
      (loadNames c)).series.map (fun r => r.id)).Nodup :=
    upsertAll_ids_nodup c co fr p (loadNames c) _ (nodup_firstOccs _)
      hRids hRbound
  rw [process_success_eq st c p co fr m now h1 h2 h3]
  rw [dataView_eq_dataJoin]
  rw [record_series, record_data, loadResult_series, loadResult_data,
    upsertAll_data]
  rw [dataJoin_append]
  rw [kept_eq_survData st c p co fr hInv]
  congr 1
  · unfold dataJoin
    apply flatMap_congr_mem
    intro d hd
    unfold survData at hd
    rw [List.mem_filter] at hd
    obtain ⟨s, hsSurv, hsb⟩ := List.any_eq_true.mp hd.2
    rw [beq_iff_eq] at hsb
    have hs := hsSurv
    unfold survSeries at hs
    rw [List.mem_filter, Bool.and_eq_true] at hs
    obtain ⟨hs1, hs2, hs3⟩ := hs
    rw [Bool.not_eq_true'] at hs2 hs3
    have hsR : s ∈ (remove_file_data st p).1.series := by
      rw [remove_series_eq st p hInv.1]
      exact List.mem_filter.mpr ⟨hs1, by rw [hs2]; rfl⟩
    simp only [← hsb]
    have hus : updFun c co fr p (loadNames c) s = s :=
      updFun_untouched c co fr p (loadNames c) s hs3
    have hF1 := filter_id_eq_singleton (fun x => x.id)
      (upsertAll c co fr p (remove_file_data st p).1 (loadNames c)).series
      hFids (updFun c co fr p (loadNames c) s)
      (by rw [hser]
          exact List.mem_append_left _ (List.mem_map.mpr ⟨s, hsR, rfl⟩))
    simp only [updFun_id, hus] at hF1
    have hsurvids : ((survSeries c fr p st).map (fun r => r.id)).Nodup :=
      hInv.1.sublist ((List.filter_sublist _).map _)
    have hF2 := filter_id_eq_singleton (fun x => x.id)
      (survSeries c fr p st) hsurvids s hsSurv
    rw [hF1, hF2]
  · unfold dataJoin
    rw [List.flatMap_map]
    apply flatMap_singleton_eq_map
    intro lrow hlrow
    dsimp only
    have hnmem : lrow.2.1 ∈ loadNames c := by
      unfold loadNames
      rw [mem_firstOccs]
      exact List.mem_map.mpr ⟨lrow, hlrow, rfl⟩
    obtain ⟨i, hi⟩ := Option.isSome_iff_exists.mp
      (loadN2i_covers (remove_file_data st p).1 c co fr p lrow.2.1 hnmem)
    obtain ⟨row, hrow, hrowid, hrowname, hrowfr, hrowsf⟩ :=
      loadN2i_sound (remove_file_data st p).1 c co fr p lrow.2.1 i hi
    simp only [hi, Option.getD_some]
    have hsing := filter_id_eq_singleton (fun x => x.id)
      (upsertAll c co fr p (remove_file_data st p).1 (loadNames c)).series
      hFids row hrow
    simp only [hrowid] at hsing
    rw [hsing]
    simp only [List.map_cons, List.map_nil, hrowname, hrowfr]

/-- The series view after reprocessing a file: the surviving rows plus one
row per group key of the file, up to order (T1). -/
theorem seriesView_step (st : Store) (c : ParquetContent) (p co fr : String)
    (m now : Nat) (hInv : StoreInv st)
    (h1 : c.hasDate = true) (h2 : c.cols.isEmpty = false)
    (h3 : (longRows c).isEmpty = false) :
    List.Perm (seriesView (process_changed_file st ⟨p, co, fr, m, some c⟩ now))
      ((survSeries c fr p st).map seriesTuple ++
        (loadNames c).map (keyTuple c co fr p)) := by
  have hRinv := storeInv_remove st p hInv
  obtain ⟨hRids, hRkeys, hRbound, hRrefs⟩ := hRinv
  obtain ⟨A, hser, hnames, hprops, hnodA, hle⟩ :=
    upsertAll_spec c co fr p (loadNames c) (remove_file_data st p).1
      (nodup_firstOccs _)
  rw [process_success_eq st c p co fr m now h1 h2 h3]
  unfold seriesView
  rw [record_series, loadResult_series, hser, List.map_append, List.map_map]
  have h0 : List.Perm ((remove_file_data st p).1.series.map
      (seriesTuple ∘ updFun c co fr p (loadNames c)))
      (((remove_file_data st p).1.series.filter (fun r =>
          (loadNames c).contains r.name && (r.frequency == fr))).map
        (seriesTuple ∘ updFun c co fr p (loadNames c)) ++
      ((remove_file_data st p).1.series.filter (fun r =>
          !((loadNames c).contains r.name && (r.frequency == fr)))).map
        (seriesTuple ∘ updFun c co fr p (loadNames c))) := by
    rw [← List.map_append]
    exact ((List.filter_append_perm _ _).symm).map _
  have htouched : ((remove_file_data st p).1.series.filter (fun r =>
      (loadNames c).contains r.name && (r.frequency == fr))).map
        (seriesTuple ∘ updFun c co fr p (loadNames c)) =
      (((remove_file_data st p).1.series.filter (fun r =>
          (loadNames c).contains r.name && (r.frequency == fr))).map
        (fun r => r.name)).map (keyTuple c co fr p) := by
    rw [List.map_map]
    apply List.map_eq_map_iff.mpr
    intro r hr
    rw [List.mem_filter] at hr
    have htch := hr.2
    have hc := htch
    rw [Bool.and_eq_true] at hc
    have hfr : r.frequency = fr := beq_iff_eq.mp hc.2
    show seriesTuple (updFun c co fr p (loadNames c) r) = keyTuple c co fr p r.name
    rw [updFun_touched c co fr p (loadNames c) r htch]
    simp [seriesTuple, keyTuple, hfr]
  have huntouched : ((remove_file_data st p).1.series.filter (fun r =>
      !((loadNames c).contains r.name && (r.frequency == fr)))).map
        (seriesTuple ∘ updFun c co fr p (loadNames c)) =
      (survSeries c fr p st).map seriesTuple := by
    have he1 : ((remove_file_data st p).1.series.filter (fun r =>
        !((loadNames c).contains r.name && (r.frequency == fr)))).map
          (seriesTuple ∘ updFun c co fr p (loadNames c)) =
        ((remove_file_data st p).1.series.filter (fun r =>
          !((loadNames c).contains r.name && (r.frequency == fr)))).map
            seriesTuple := by
      apply List.map_eq_map_iff.mpr
      intro r hr
      rw [List.mem_filter] at hr
      have h4 := hr.2
      rw [Bool.not_eq_true'] at h4
      show seriesTuple (updFun c co fr p (loadNames c) r) = seriesTuple r
      rw [updFun_untouched c co fr p (loadNames c) r h4]
    rw [he1]
    congr 1
    rw [remove_series_eq st p hInv.1, filter_and]
    rfl
  have hAeq : A.map seriesTuple =
      ((loadNames c).filter (fun n =>
        !(existsKey (remove_file_data st p).1 fr n))).map (keyTuple c co fr p) := by
    have hA2 : A.map seriesTuple = (A.map (fun a => a.name)).map (keyTuple c co fr p) := by
      rw [List.map_map]
      apply List.map_eq_map_iff.mpr
      intro a ha
      obtain ⟨hco, hfr, hsf, hmin, hmax, hcnt, _, _⟩ := hprops a ha
      show seriesTuple a = keyTuple c co fr p a.name
      unfold seriesTuple keyTuple
      rw [hco, hfr, hsf, hmin, hmax, hcnt]
    rw [hA2, hnames]
  have hnperm : List.Perm (((remove_file_data st p).1.series.filter (fun r =>
      (loadNames c).contains r.name && (r.frequency == fr))).map (fun r => r.name))
      ((loadNames c).filter (fun n => existsKey (remove_file_data st p).1 fr n)) := by
    apply List.perm_of_nodup_nodup_toFinset_eq
    · apply nodup_names_of_nodup_keys _ fr
      · exact hRkeys.sublist ((List.filter_sublist _).map _)
      · intro r hr
        rw [List.mem_filter] at hr
        have hc := hr.2
        rw [Bool.and_eq_true] at hc
        exact beq_iff_eq.mp hc.2
    · exact (nodup_firstOccs _).sublist (List.filter_sublist _)
    · ext x
      rw [List.mem_toFinset, List.mem_toFinset, List.mem_map, List.mem_filter]
      constructor
      · rintro ⟨r, hr, hrn⟩
        rw [List.mem_filter] at hr
        have hc := hr.2
        rw [Bool.and_eq_true] at hc
        refine ⟨?_, ?_⟩
        · rw [← hrn]
          exact (contains_iff_mem _ _).mp hc.1
        · show existsKey (remove_file_data st p).1 fr x = true
          unfold existsKey
          apply List.any_eq_true.mpr
          refine ⟨r, hr.1, ?_⟩
          rw [Bool.and_eq_true]
          exact ⟨beq_iff_eq.mpr hrn, hc.2⟩
      · rintro ⟨hxn, hek⟩
        have hek2 : existsKey (remove_file_data st p).1 fr x = true := hek
        unfold existsKey at hek2
        obtain ⟨r, hr, hrb⟩ := List.any_eq_true.mp hek2
        rw [Bool.and_eq_true, beq_iff_eq, beq_iff_eq] at hrb
        refine ⟨r, List.mem_filter.mpr ⟨hr, ?_⟩, hrb.1⟩
        rw [Bool.and_eq_true]
        refine ⟨(contains_iff_mem _ _).mpr ?_, beq_iff_eq.mpr hrb.2⟩
        rw [hrb.1]
        exact hxn
  rw [hAeq]
  have hstep1 := h0.append_right (((loadNames c).filter (fun n =>
    !(existsKey (remove_file_data st p).1 fr n))).map (keyTuple c co fr p))
  rw [htouched, huntouched] at hstep1
  have hstep2 : List.Perm
      (((((remove_file_data st p).1.series.filter (fun r =>
          (loadNames c).contains r.name && (r.frequency == fr))).map
            (fun r => r.name)).map (keyTuple c co fr p) ++
          (survSeries c fr p st).map seriesTuple) ++
        (((loadNames c).filter (fun n =>
          !(existsKey (remove_file_data st p).1 fr n))).map (keyTuple c co fr p)))
      ((((loadNames c).filter (fun n =>
          existsKey (remove_file_data st p).1 fr n)).map (keyTuple c co fr p) ++
          (survSeries c fr p st).map seriesTuple) ++
        (((loadNames c).filter (fun n =>
          !(existsKey (remove_file_data st p).1 fr n))).map (keyTuple c co fr p))) :=
    ((hnperm.map (keyTuple c co fr p)).append_right _).append_right _
  have hstep3 : List.Perm
      ((((loadNames c).filter (fun n =>
          existsKey (remove_file_data st p).1 fr n)).map (keyTuple c co fr p) ++
          (survSeries c fr p st).map seriesTuple) ++
        (((loadNames c).filter (fun n =>
          !(existsKey (remove_file_data st p).1 fr n))).map (keyTuple c co fr p)))
      ((survSeries c fr p st).map seriesTuple ++
        ((((loadNames c).filter (fun n =>
            existsKey (remove_file_data st p).1 fr n)).map (keyTuple c co fr p)) ++
          (((loadNames c).filter (fun n =>
            !(existsKey (remove_file_data st p).1 fr n))).map (keyTuple c co fr p)))) := by
    rw [List.append_assoc]
    exact List.perm_append_comm_assoc _ _ _
  have hstep4 : List.Perm
      ((survSeries c fr p st).map seriesTuple ++
        ((((loadNames c).filter (fun n =>
            existsKey (remove_file_data st p).1 fr n)).map (keyTuple c co fr p)) ++
          (((loadNames c).filter (fun n =>
            !(existsKey (remove_file_data st p).1 fr n))).map (keyTuple c co fr p))))
      ((survSeries c fr p st).map seriesTuple ++
        (loadNames c).map (keyTuple c co fr p)) := by
    apply List.Perm.append_left
    rw [← List.map_append]
    exact (List.filter_append_perm _ _).map _
  exact hstep1.trans (hstep2.trans (hstep3.trans hstep4))

/-- C4: Re-ingesting a file with the same content (and possibly different
modification times) is idempotent on the store's SeriesRecord and DataPoint
tables: on any store satisfying the schema invariants, reprocessing the file
a second time yields series and data tables identical, as multisets of
spec-level rows (name, country, frequency, source_file, min_date, max_date,
count) and (name, frequency, date, value), to those after the first
reprocessing — no duplicate rows and no drift in per-series min_date,
max_date or count. -/
theorem c4_reingest_idempotent (st : Store) (p co fr : String)
    (m1 m2 now1 now2 : Nat) (c : ParquetContent) (hInv : StoreInv st) :
    List.Perm
      (seriesView (process_changed_file
        (process_changed_file st ⟨p, co, fr, m1, some c⟩ now1)
        ⟨p, co, fr, m2, some c⟩ now2))
      (seriesView (process_changed_file st ⟨p, co, fr, m1, some c⟩ now1)) ∧
    List.Perm
      (dataView (process_changed_file
        (process_changed_file st ⟨p, co, fr, m1, some c⟩ now1)
        ⟨p, co, fr, m2, some c⟩ now2))
      (dataView (process_changed_file st ⟨p, co, fr, m1, some c⟩ now1)) := by
  by_cases hg : c.hasDate = true ∧ c.cols.isEmpty = false ∧
    (longRows c).isEmpty = false
  · obtain ⟨h1, h2, h3⟩ := hg
    have hInv1 := storeInv_step st c p co fr m1 now1 hInv h1 h2 h3
    constructor
    · have hs1 := seriesView_step st c p co fr m1 now1 hInv h1 h2 h3
      have hs2 := seriesView_step
        (process_changed_file st ⟨p, co, fr, m1, some c⟩ now1)
        c p co fr m2 now2 hInv1 h1 h2 h3
      rw [survSeries_step st c p co fr m1 now1 hInv h1 h2 h3] at hs2
      exact hs2.trans hs1.symm
    · have hd1 := dataView_step st c p co fr m1 now1 hInv h1 h2 h3
      have hd2 := dataView_step
        (process_changed_file st ⟨p, co, fr, m1, some c⟩ now1)
        c p co fr m2 now2 hInv1 h1 h2 h3
      rw [survSeries_step st c p co fr m1 now1 hInv h1 h2 h3,
        survData_step st c p co fr m1 now1 hInv h1 h2 h3] at hd2
      rw [hd2, hd1]
  · have hz : c.hasDate = false ∨ c.cols.isEmpty = true ∨
        (longRows c).isEmpty = true := by
      cases hhd : c.hasDate with
      | false => exact Or.inl rfl
      | true =>
        cases hce : c.cols.isEmpty with
        | true => exact Or.inr (Or.inl rfl)
        | false =>
          cases hlr : (longRows c).isEmpty with
          | true => exact Or.inr (Or.inr rfl)
          | false => exact absurd ⟨hhd, hce, hlr⟩ hg
    rw [process_zero_eq st c p co fr m1 now1 hz]
    rw [process_zero_eq (remove_file_data st p).1 c p co fr m2 now2 hz]
    rw [remove_idem st p]
    exact ⟨List.Perm.refl _, List.Perm.refl _⟩

def c4wc : ParquetContent := ⟨true, [1, 2], [("a", [some 3, none])]⟩

def c4wst : Store := ⟨[], [], [], 0⟩

/-- Witness for c4_reingest_idempotent at a concrete store and content. -/
theorem c4_witness :
    StoreInv c4wst ∧
    (List.Perm
      (seriesView (process_changed_file
        (process_changed_file c4wst ⟨"f.parquet", "taiwan", "M", 1, some c4wc⟩ 5)
        ⟨"f.parquet", "taiwan", "M", 2, some c4wc⟩ 6))
      (seriesView (process_changed_file c4wst
        ⟨"f.parquet", "taiwan", "M", 1, some c4wc⟩ 5)) ∧
    List.Perm
      (dataView (process_changed_file
        (process_changed_file c4wst ⟨"f.parquet", "taiwan", "M", 1, some c4wc⟩ 5)
        ⟨"f.parquet", "taiwan", "M", 2, some c4wc⟩ 6))
      (dataView (process_changed_file c4wst
        ⟨"f.parquet", "taiwan", "M", 1, some c4wc⟩ 5))) :=
  ⟨by decide,
   c4_reingest_idempotent c4wst "f.parquet" "taiwan" "M" 1 2 5 6 c4wc (by decide)⟩
